import Mathlib

/-!
# The haskell-stack backend of upm: manifests as text

A shallow embedding of `internal/backends/haskell/haskell.go`.

* Go strings are modelled as lists of characters (`Str`); the code cuts and
  searches them by bytes, which is the same for the ASCII literals it uses
  (the eight-character head of an item, the line heads, the hyphen).
* The two manifests `project.cabal` and `stack.yaml` are the state (`FS`);
  a file is either absent (`none`) or present with a content.
* The network is a parameter (`World`): what the search service answers to a
  query and what a metadata URL returns.
* A call either returns, stops the process through `util.Die`, or stops it
  with a runtime error (`Result`).
-/

set_option maxRecDepth 100000

namespace Haskell

/-- Go `string`. -/
abbrev Str := List Char

/-- Go `map[string]string`, as a list of bindings with pairwise distinct keys. -/
abbrev GoMap := List (Str × Str)

/-- How a call ends: it returns a value, `util.Die` ends the process with a
message, or the Go runtime ends it (index or slice bound out of range). -/
inductive Result (α : Type) where
  | ok : α → Result α
  | die : Str → Result α
  | crash : Result α
deriving DecidableEq, Repr

/-- The fields of `api.PkgInfo` that `searchFunction` fills. -/
structure PkgInfo where
  Name : Str
  Description : Str
  Version : Str
  HomepageURL : Str
  SourceCodeURL : Str
  BugTrackerURL : Str
  Author : Str
  License : Str
deriving DecidableEq, Repr

/-- One element of the decoded search response (`map[string]string`): the
values under the three keys the code reads, empty when the key is missing. -/
structure Hit where
  item : Str
  url : Str
  docs : Str
deriving DecidableEq, Repr

/-- The network: `search q` is the decoded body of the hoogle request for query
`q` (or the transport error of `http.Get`), `fetch u` the body behind URL `u`
(or the transport error). -/
structure World where
  search : Str → Except Str (List Hit)
  fetch : Str → Except Str Str

/-- The project directory: `project.cabal` and `stack.yaml`. -/
structure FS where
  cabal : Option Str
  stack : Option Str
deriving DecidableEq, Repr

/-! ## Strings -/

/-- `strings.Contains s sub`. -/
def contains : Str → Str → Bool
  | [], sub => sub.isEmpty
  | c :: cs, sub => sub.isPrefixOf (c :: cs) || contains cs sub

/-- The scan of `strings.Replace s old new (-1)` for a non-empty `old`; the
counter is the number of characters of the occurrence just found that are
still to be passed over. -/
def replaceScan (old new : Str) : Nat → Str → Str
  | _, [] => []
  | k + 1, _ :: cs => replaceScan old new k cs
  | 0, c :: cs =>
    if old.isPrefixOf (c :: cs) then new ++ replaceScan old new (old.length - 1) cs
    else c :: replaceScan old new 0 cs

/-- `strings.Replace s old new (-1)` and `strings.ReplaceAll s old new`: every
non-overlapping occurrence of `old`, from the left, becomes `new`; an empty
`old` matches before every character and at the end. -/
def replaceAll (s old new : Str) : Str :=
  if old.isEmpty then new ++ s.flatMap (fun c => c :: new)
  else replaceScan old new 0 s

/-- `strings.Split s "-"` for a one-character separator. -/
def splitOn (sep : Char) : Str → List Str
  | [] => [[]]
  | c :: cs =>
    if c = sep then [] :: splitOn sep cs
    else
      match splitOn sep cs with
      | [] => [[c]]
      | h :: t => (c :: h) :: t

/-- `strings.Join l "-"` for a one-character separator. -/
def joinWith (sep : Char) : List Str → Str
  | [] => []
  | [a] => a
  | a :: b :: t => a ++ sep :: joinWith sep (b :: t)

/-! ## The regular expressions -/

/-- The class `.` of Go regular expressions: any character but the line feed. -/
def isDot (c : Char) : Bool := c != '\n'

/-- The class `\S`: any character outside `[\t\n\f\r ]`. -/
def isNonSpace (c : Char) : Bool :=
  !(c == '\t' || c == '\n' || c == '\x0c' || c == '\r' || c == ' ')

/-- A match of `lit(.+)` that starts at the head of the text: the literal, then
the longest non-empty run of `.`. The result is the submatch. -/
def matchAt : Str → Str → Option Str
  | [], s =>
    let cap := s.takeWhile isDot
    if cap.isEmpty then none else some cap
  | _ :: _, [] => none
  | a :: lit, x :: s => if a = x then matchAt lit s else none

/-- `FindAllSubmatch` for `lit(.+)`: the submatches of the successive
non-overlapping matches, leftmost first. The counter is the number of
characters of the match just found that are still to be passed over. -/
def findAllLit (lit : Str) : Nat → Str → List Str
  | _, [] => []
  | k + 1, _ :: cs => findAllLit lit k cs
  | 0, c :: cs =>
    match matchAt lit (c :: cs) with
    | some cap => cap :: findAllLit lit (lit.length + cap.length - 1) cs
    | none => findAllLit lit 0 cs

/-- A match of `(\S+): +(.+)` that starts at the head of the text, as
(first submatch, second submatch, length of the match). The run of `\S` that
starts here has to end in a colon followed by a blank; the blanks are taken
greedily, and one is given back to `.+` when nothing else is left on the
line. -/
def cabalMatchAt (s : Str) : Option (Str × Str × Nat) :=
  let run := s.takeWhile isNonSpace
  let blanks := (s.drop run.length).takeWhile (fun c => c == ' ')
  let value := ((s.drop run.length).drop blanks.length).takeWhile isDot
  if 2 ≤ run.length ∧ run.getLast? = some ':' ∧ 1 ≤ blanks.length then
    if value.isEmpty then
      if 2 ≤ blanks.length then some (run.dropLast, [' '], run.length + blanks.length)
      else none
    else some (run.dropLast, value, run.length + blanks.length + value.length)
  else none

/-- `FindAllSubmatch` for `(\S+): +(.+)`, as the list of (key, value). -/
def cabalFindAll : Nat → Str → List (Str × Str)
  | _, [] => []
  | k + 1, _ :: cs => cabalFindAll k cs
  | 0, c :: cs =>
    match cabalMatchAt (c :: cs) with
    | some (key, value, len) => (key, value) :: cabalFindAll (len - 1) cs
    | none => cabalFindAll 0 cs

/-! ## Maps -/

/-- The assignment `m[k] = v`. -/
def GoMap.set (m : GoMap) (k v : Str) : GoMap :=
  (k, v) :: m.filter (fun p => !(p.1 == k))

/-- The lookup `v, ok := m[k]`. -/
def GoMap.get (m : GoMap) (k : Str) : Option Str := m.lookup k

/-- The lookup `m[k]`, empty for a missing key. -/
def GoMap.getD (m : GoMap) (k : Str) : Str := (m.lookup k).getD []

/-- The keys of a map. -/
def GoMap.keys (m : GoMap) : List Str := m.map Prod.fst

/-! ## searchFunction and Info -/

/-- The map `cabalData` built from the metadata document: a later `key: value`
line overwrites an earlier one with the same key. -/
def cabalData (cabal : Str) : GoMap :=
  (cabalFindAll 0 cabal).foldl (fun m kv => GoMap.set m kv.1 kv.2) []

/-- The record `info` built for one hit from its metadata document. -/
def mkInfo (result : Hit) (cabal : Str) : PkgInfo :=
  { Name := result.item.drop 8
    Description := replaceAll result.docs ['\n'] []
    Version := GoMap.getD (cabalData cabal) "version".toList
    HomepageURL := result.url
    SourceCodeURL := GoMap.getD (cabalData cabal) "homepage".toList
    BugTrackerURL := GoMap.getD (cabalData cabal) "bug-reports".toList
    Author := GoMap.getD (cabalData cabal) "author".toList
    License := GoMap.getD (cabalData cabal) "license".toList }

/-- The URL of the metadata document of a hit. -/
def cabalURL (result : Hit) : Str :=
  result.url ++ "/src/".toList ++ result.item.drop 8 ++ ".cabal".toList

/-- The loop of `searchFunction` over the hits. A hit without item is passed
over; `result["item"][8:]` is out of range for an item shorter than eight
characters; a failed fetch ends the process. -/
def collect (w : World) : List Hit → Result (List PkgInfo)
  | [] => .ok []
  | result :: rest =>
    if result.item = [] then collect w rest
    else if result.item.length < 8 then .crash
    else
      match w.fetch (cabalURL result) with
      | .error e => .die ("hackage [cabal file] response:".toList ++ e)
      | .ok cabal =>
        match collect w rest with
        | .ok infos => .ok (mkInfo result cabal :: infos)
        | .die m => .die m
        | .crash => .crash

/-- `searchFunction query indiv`. With `indiv` the hits are cut to
`results[:1]`, which is out of range when there is no hit. -/
def searchFunction (w : World) (query : Str) (indiv : Bool) : Result (List PkgInfo) :=
  match w.search query with
  | .error e => .die ("hoogle response:".toList ++ e)
  | .ok results =>
    if indiv ∧ results = [] then .crash
    else
      match collect w (if indiv then results.take 1 else results) with
      | .ok finresults =>
        if indiv ∧ (finresults.length = 0 ∨ (finresults.head?.map PkgInfo.Name) ≠ some query) then
          .die ("cannot find package ".toList ++ query)
        else .ok finresults
      | .die m => .die m
      | .crash => .crash

/-- `HaskellBackend.Info i`, that is `searchFunction(i, true)[0]`. -/
def Info (w : World) (i : Str) : Result PkgInfo :=
  match searchFunction w i true with
  | .ok (info :: _) => .ok info
  | .ok [] => .crash
  | .die m => .die m
  | .crash => .crash

/-- `HaskellBackend.Search q`. -/
def Search (w : World) (q : Str) : Result (List PkgInfo) := searchFunction w q false

/-! ## The manifests -/

/-- The scaffold `initialCabal` of `project.cabal`. -/
def initialCabal : Str :=
  ("name:                project\n" ++
   "version:             0.0.0\n" ++
   "build-type:          Simple\n" ++
   "cabal-version:       >=1.10\n" ++
   "\n" ++
   "executable main\n" ++
   "  hs-source-dirs:      .\n" ++
   "  main-is:             main.hs\n" ++
   "  default-language:    Haskell2010\n" ++
   "  build-depends:       \n" ++
   "    base >= 4.7 && < 5\n").toList

/-- The scaffold of `stack.yaml`. -/
def initialStack : Str := "resolver: lts-16.10\nsystem-ghc: true\n".toList

/-- The literal of the expression of `ListSpecfile`, four blanks, a comma and
a blank; it is also the head of every line `Add` writes to `project.cabal`. -/
def specLit : Str := [' ', ' ', ' ', ' ', ',', ' ']

/-- The literal of the expression of `ListLockfile`, a hyphen and a blank; it
is also the head of every line `Add` writes to `stack.yaml`. -/
def lockLit : Str := ['-', ' ']

/-- The line `Add` writes to `project.cabal` for a name. -/
def specLine (name : Str) : Str := specLit ++ name ++ ['\n']

/-- The line `Add` writes to `stack.yaml` for a name and a version. -/
def lockLine (name version : Str) : Str := lockLit ++ name ++ '-' :: version ++ ['\n']

/-- The section marker `Add` writes to `stack.yaml` before the first entry. -/
def extraDepsLine : Str := "extra-deps:\n".toList

/-- The text `Add` looks for in `stack.yaml` to decide whether the section
marker is there. -/
def extraDepsKey : Str := "extra-deps".toList

/-- `ioutil.ReadFile` with its error dropped: an absent file reads as empty. -/
def readFile (f : Option Str) : Str := f.getD []

/-- A write through `os.OpenFile(.., O_APPEND|O_WRONLY, ..)` with the errors
dropped: nothing happens when the file is absent. -/
def appendFile (f : Option Str) (s : Str) : Option Str := f.map (fun c => c ++ s)

/-- A write through `os.OpenFile(.., O_WRONLY|O_TRUNC, ..)` with the errors
dropped: nothing happens when the file is absent. -/
def overwriteFile (f : Option Str) (s : Str) : Option Str := f.map (fun _ => s)

/-- The first statement of `Add`: both scaffolds are written when
`project.cabal` does not exist. -/
def ensureInit (fs : FS) : FS :=
  match fs.cabal with
  | none => { cabal := some initialCabal, stack := some initialStack }
  | some _ => fs

/-- The test `onStackage` of `Add`: the description does not say that the
package is outside the curated set. -/
def onStackage (packageInfo : PkgInfo) : Bool :=
  !(contains packageInfo.Description "Not on Stackage".toList)

/-- The version `Add` writes to `stack.yaml`: the one of the request, or the
resolved one when the request has none. -/
def pinnedVersion (version : Str) (packageInfo : PkgInfo) : Str :=
  if version = [] then packageInfo.Version else version

/-- The body of the loop of `Add` once the package is resolved. -/
def addResolved (fs : FS) (name version : Str) (packageInfo : PkgInfo) : FS :=
  let fs1 : FS :=
    if !(onStackage packageInfo) then
      let fs0 : FS :=
        if !(contains (readFile fs.stack) extraDepsKey) then
          { fs with stack := appendFile fs.stack extraDepsLine }
        else fs
      { fs0 with stack := appendFile fs0.stack (lockLine name (pinnedVersion version packageInfo)) }
    else fs
  { fs1 with cabal := appendFile fs1.cabal (specLine name) }

/-- The loop of `Add` over the requests, in the order the map is ranged over. -/
def addLoop (w : World) : FS → List (Str × Str) → Result FS
  | fs, [] => .ok fs
  | fs, (name, version) :: rest =>
    match Info w name with
    | .ok packageInfo => addLoop w (addResolved fs name version packageInfo) rest
    | .die m => .die m
    | .crash => .crash

/-- `Add packages projectName`; `packages` is the list of the bindings of the
map in the order the loop visits them. -/
def Add (w : World) (fs : FS) (packages : List (Str × Str)) : Result FS :=
  addLoop w (ensureInit fs) packages

/-- `ListSpecfile` on a content of `project.cabal`. -/
def listSpec (contents : Str) : GoMap :=
  (findAllLit specLit 0 contents).foldl (fun m cap => GoMap.set m cap []) []

/-- `ListSpecfile`. -/
def ListSpecfile (fs : FS) : GoMap := listSpec (readFile fs.cabal)

/-- The two sides of an entry of `stack.yaml`: the text split at its hyphens,
all segments but the last joined again, and the last segment. -/
def splitEntry (t : Str) : Str × Str :=
  let l := splitOn '-' t
  (joinWith '-' l.dropLast, l.getLastD [])

/-- `ListLockfile` on a content of `stack.yaml`. -/
def listLock (contents : Str) : GoMap :=
  (findAllLit lockLit 0 contents).foldl
    (fun m cap => GoMap.set m (splitEntry cap).1 (splitEntry cap).2) []

/-- `ListLockfile`. -/
def ListLockfile (fs : FS) : GoMap := listLock (readFile fs.stack)

/-- One round of the loop of `Remove` on the pair (spec, lock). -/
def removeStep (nonStackage : GoMap) (sl : Str × Str) (name : Str) : Str × Str :=
  let lock :=
    match GoMap.get nonStackage name with
    | some val => replaceAll sl.2 (lockLine name val) []
    | none => sl.2
  (replaceAll sl.1 (specLine name) [], lock)

/-- `Remove pkgs`; `pkgs` is the list of the keys of the map in the order the
loop visits them. -/
def Remove (fs : FS) (pkgs : List Str) : FS :=
  let nonStackage := ListLockfile fs
  let sl := pkgs.foldl (removeStep nonStackage) (readFile fs.cabal, readFile fs.stack)
  { cabal := overwriteFile fs.cabal sl.1, stack := overwriteFile fs.stack sl.2 }

/-- The empty project directory. -/
def emptyDir : FS := { cabal := none, stack := none }

/-- A content that is empty or ends with a line feed. -/
def endsNl : Str → Bool
  | [] => true
  | [x] => x == '\n'
  | _ :: y :: t => endsNl (y :: t)

/-- The content made of the given pieces, each followed by a line feed. -/
def unlines : List Str → Str
  | [] => []
  | l :: ls => l ++ ['\n'] ++ unlines ls

/-- The lines of a content that ends with a line feed. -/
def linesOf (c : Str) : List Str := (splitOn '\n' c).dropLast

/-! ## Sequences of calls -/

/-- One call that changes the manifests. -/
inductive Call where
  | add (w : World) (packages : List (Str × Str))
  | remove (pkgs : List Str)

/-- A sequence of calls, each run to completion before the next one starts. -/
def run : FS → List Call → Result FS
  | fs, [] => .ok fs
  | fs, .add w packages :: rest =>
    match Add w fs packages with
    | .ok fs1 => run fs1 rest
    | .die m => .die m
    | .crash => .crash
  | fs, .remove pkgs :: rest => run (Remove fs pkgs) rest

/-- Invariant 1: every key of `ListLockfile()` is a key of `ListSpecfile()`. -/
def lockWithinSpec (fs : FS) : Prop :=
  ∀ k ∈ GoMap.keys (ListLockfile fs), k ∈ GoMap.keys (ListSpecfile fs)

instance (fs : FS) : Decidable (lockWithinSpec fs) := by
  unfold lockWithinSpec
  infer_instance

/-- A name made of one word: not empty, without line feed, comma or blank. -/
def goodName (n : Str) : Prop := n ≠ [] ∧ '\n' ∉ n ∧ ',' ∉ n ∧ ' ' ∉ n

instance (n : Str) : Decidable (goodName n) := by
  unfold goodName
  infer_instance

/-- A version that is read back as it was written: no line feed and no hyphen. -/
def goodVersion (v : Str) : Prop := '\n' ∉ v ∧ '-' ∉ v

instance (v : Str) : Decidable (goodVersion v) := by
  unfold goodVersion
  infer_instance

/-- The requests of one `Add`, seen from the state each of them meets: every
name is one word; and when a request resolves to a package outside the
curated set, the version it pins has neither line feed nor hyphen and
`ListLockfile()` does not map the name to another version. -/
def admissibleAdd (w : World) : FS → List (Str × Str) → Prop
  | _, [] => True
  | fs, (name, version) :: rest =>
    goodName name ∧
    ∀ info, Info w name = .ok info →
      (onStackage info = false →
        goodVersion (pinnedVersion version info) ∧
        ∀ val, GoMap.get (ListLockfile fs) name = some val → val = pinnedVersion version info) ∧
      admissibleAdd w (addResolved fs name version info) rest

/-- The calls of a sequence, seen from the state each of them meets: the
requests of every `Add` are admissible, and no name given to `Remove` has a
line feed. -/
def admissible : FS → List Call → Prop
  | _, [] => True
  | fs, .add w packages :: rest =>
    admissibleAdd w (ensureInit fs) packages ∧
    ∀ fs1, Add w fs packages = .ok fs1 → admissible fs1 rest
  | fs, .remove pkgs :: rest =>
    (∀ n ∈ pkgs, '\n' ∉ n) ∧ admissible (Remove fs pkgs) rest

/-- The lines `Add` writes to `project.cabal` for a list of names. -/
def specText : List Str → Str
  | [] => []
  | n :: ns => specLine n ++ specText ns

/-- The lines `Add` writes to `stack.yaml` for a list of entries. -/
def lockText : List (Str × Str) → Str
  | [] => []
  | e :: es => lockLine e.1 e.2 ++ lockText es

/-- The shape of the manifests of a project that was set up by `Add`: the
scaffolds, followed by the lines of the names `ns` and, after the section
marker, of the entries `es`; every entry belongs to a listed name and no name
has entries with two versions. -/
structure Shape (fs : FS) (ns : List Str) (es : List (Str × Str)) (P : Str) : Prop where
  cabal : fs.cabal = some (initialCabal ++ specText ns)
  stack : fs.stack = some (P ++ lockText es)
  head : (P = initialStack ∧ es = []) ∨ P = initialStack ++ extraDepsLine
  names : ∀ n ∈ ns, goodName n
  entries : ∀ e ∈ es, e.1 ∈ ns ∧ goodVersion e.2
  functional : ∀ e1 ∈ es, ∀ e2 ∈ es, e1.1 = e2.1 → e1.2 = e2.2

/-! ## Concrete networks and project directories -/

/-- A network in which every name resolves to a package of the curated set,
at version 1.0.0. -/
def curatedWorld : World :=
  { search := fun q => .ok [{ item := "package ".toList ++ q, url := "https://h/".toList ++ q,
                              docs := "A package.\n".toList }]
    fetch := fun _ => .ok "name: p\nversion: 1.0.0\nlicense: BSD3\n".toList }

/-- A network in which every name resolves to a package outside the curated
set, whose metadata document gives the version `ver`. -/
def extraWorld (ver : Str) : World :=
  { search := fun q => .ok [{ item := "package ".toList ++ q, url := "https://h/".toList ++ q,
                              docs := "Not on Stackage, so not\nsearched.\n".toList }]
    fetch := fun _ => .ok ("name: p\nversion: ".toList ++ ver ++ "\nlicense: BSD3\n".toList) }

/-- A project whose `project.cabal` ends with a dependency line that has no
line feed after it. -/
def openEndedDir : FS :=
  { cabal := some (initialCabal ++ "    , text".toList), stack := some initialStack }

/-- The record `curatedWorld` resolves `aeson` to. -/
def aesonInfo : PkgInfo :=
  mkInfo { item := "package aeson".toList, url := "https://h/aeson".toList,
           docs := "A package.\n".toList }
    "name: p\nversion: 1.0.0\nlicense: BSD3\n".toList

/-- The record `extraWorld "2.0"` resolves `foo` to. -/
def fooInfo : PkgInfo :=
  mkInfo { item := "package foo".toList, url := "https://h/foo".toList,
           docs := "Not on Stackage, so not\nsearched.\n".toList }
    "name: p\nversion: 2.0\nlicense: BSD3\n".toList

/-- A project in which `foo` is already listed, pinned at version 1.0. -/
def fooPinnedDir : FS :=
  { cabal := some (initialCabal ++ "    , foo\n".toList),
    stack := some (initialStack ++ "extra-deps:\n- foo-1.0\n".toList) }

/-- A project whose `project.cabal` ends with a line that holds the text of a
dependency line for `foo` after another comma, and a line `foo`. -/
def nestedDir : FS :=
  { cabal := some (initialCabal ++ "    ,     , foo\nfoo\n".toList), stack := some initialStack }

/-- A project whose `stack.yaml` ends with the text `- my`, without a line feed
after it. -/
def gluedDir : FS :=
  { cabal := some initialCabal, stack := some (initialStack ++ "- my".toList) }

/-- A project whose `stack.yaml` has the `packages` block of a stack project. -/
def packagesDir : FS :=
  { cabal := some initialCabal, stack := some (initialStack ++ "packages:\n- .\n".toList) }

/-- The record `extraWorld "1.0"` resolves `foo` to. -/
def fooInfoOne : PkgInfo :=
  mkInfo { item := "package foo".toList, url := "https://h/foo".toList,
           docs := "Not on Stackage, so not\nsearched.\n".toList }
    "name: p\nversion: 1.0\nlicense: BSD3\n".toList

/-- The record `curatedWorld` resolves `bar` to. -/
def barInfo : PkgInfo :=
  mkInfo { item := "package bar".toList, url := "https://h/bar".toList,
           docs := "A package.\n".toList }
    "name: p\nversion: 1.0.0\nlicense: BSD3\n".toList

/-- A sequence of calls: `foo` is added from outside the curated set, `bar`
from the curated set, and `bar` is removed. -/
def sampleCalls : List Call :=
  [.add (extraWorld "1.0".toList) [("foo".toList, [])],
   .add curatedWorld [("bar".toList, [])],
   .remove ["bar".toList]]

/-- The project after `foo` was added from outside the curated set. -/
def fooAddedDir : FS :=
  { cabal := some (initialCabal ++ "    , foo\n".toList),
    stack := some (initialStack ++ "extra-deps:\n- foo-1.0\n".toList) }

/-- The project after `bar` was added to `fooAddedDir` from the curated set. -/
def fooBarAddedDir : FS :=
  { cabal := some (initialCabal ++ "    , foo\n    , bar\n".toList),
    stack := some (initialStack ++ "extra-deps:\n- foo-1.0\n".toList) }

/-- A project in which `foo` is already listed and pinned at version 2.0, next
to `foo-pretty`, pinned at version 1.0. -/
def fooSameDir : FS :=
  { cabal := some (initialCabal ++ "    , foo-pretty\n    , foo\n".toList),
    stack := some (initialStack ++ "extra-deps:\n- foo-pretty-1.0\n- foo-2.0\n".toList) }

/-- A project whose `stack.yaml` holds the text of the entry of `foo` at
version 2.0 in the middle of a line. -/
def midLineDir : FS :=
  { cabal := some initialCabal,
    stack := some (initialStack ++ "- foo-2- foo-2.0\n.0\n".toList) }

/-- A project, without `project.cabal`, whose `stack.yaml` has a `packages`
block before the `extra-deps` block. -/
def twoBlocksDir : FS :=
  { cabal := none,
    stack := some (initialStack ++
      "packages:\n- .\nextra-deps:\n- acme-missiles-0.3\n".toList) }

/-- A project with a `project.cabal` and no `stack.yaml`. -/
def noStackDir : FS := { cabal := some initialCabal, stack := none }

/-! ## Lemmas on maps -/

theorem lookup_filter_ne (m : GoMap) (k q : Str) (h : q ≠ k) :
    (m.filter (fun p => !(p.1 == k))).lookup q = m.lookup q := by
  induction m with
  | nil => rfl
  | cons p m ih =>
    obtain ⟨a, b⟩ := p
    by_cases hak : a = k
    · subst hak
      have hq : (q == a) = false := by simpa using h
      simp [List.filter_cons, List.lookup_cons, hq, ih]
    · by_cases hqa : q = a
      · subst hqa
        simp [List.filter_cons, List.lookup_cons, hak]
      · have hq : (q == a) = false := by simpa using hqa
        simp [List.filter_cons, List.lookup_cons, hak, hq, ih]

theorem get_set_self (m : GoMap) (k v : Str) : GoMap.get (GoMap.set m k v) k = some v := by
  simp [GoMap.set, GoMap.get, List.lookup_cons]

theorem get_set_ne (m : GoMap) (k v q : Str) (h : q ≠ k) :
    GoMap.get (GoMap.set m k v) q = GoMap.get m q := by
  have hq : (q == k) = false := by simpa using h
  simp [GoMap.set, GoMap.get, List.lookup_cons, hq, lookup_filter_ne m k q h]

theorem mem_keys_set (m : GoMap) (k v q : Str) :
    q ∈ GoMap.keys (GoMap.set m k v) ↔ q = k ∨ q ∈ GoMap.keys m := by
  simp only [GoMap.set, GoMap.keys, List.map_cons, List.mem_cons, List.mem_map, List.mem_filter]
  constructor
  · rintro (h | ⟨p, ⟨hp, _⟩, rfl⟩)
    · exact Or.inl h
    · exact Or.inr ⟨p, hp, rfl⟩
  · rintro (h | ⟨p, hp, rfl⟩)
    · exact Or.inl h
    · by_cases hk : p.1 = k
      · exact Or.inl hk
      · exact Or.inr ⟨p, ⟨hp, by simpa using hk⟩, rfl⟩

/-- The keys of a map built by successive assignments. -/
theorem mem_keys_foldl (f : Str → Str × Str) (caps : List Str) (m : GoMap) (q : Str) :
    q ∈ GoMap.keys (caps.foldl (fun m cap => GoMap.set m (f cap).1 (f cap).2) m) ↔
      q ∈ GoMap.keys m ∨ ∃ cap ∈ caps, (f cap).1 = q := by
  induction caps generalizing m with
  | nil => simp
  | cons c caps ih =>
    rw [List.foldl_cons, ih, mem_keys_set]
    constructor
    · rintro ((h | h) | ⟨cap, hc, he⟩)
      · exact Or.inr ⟨c, List.mem_cons_self _ _, h.symm⟩
      · exact Or.inl h
      · exact Or.inr ⟨cap, List.mem_cons_of_mem _ hc, he⟩
    · rintro (h | ⟨cap, hc, he⟩)
      · exact Or.inl (Or.inr h)
      · rcases List.mem_cons.1 hc with rfl | hc
        · exact Or.inl (Or.inl he.symm)
        · exact Or.inr ⟨cap, hc, he⟩

/-- The last assignment decides the value of its key. -/
theorem get_foldl_concat (f : Str → Str × Str) (caps : List Str) (t : Str) :
    GoMap.get ((caps ++ [t]).foldl (fun m cap => GoMap.set m (f cap).1 (f cap).2) []) (f t).1
      = some (f t).2 := by
  rw [List.foldl_append]
  simp [get_set_self]

/-- Assignments to other keys leave the value of a key as it is. -/
theorem get_foldl_of_ne (f : Str → Str × Str) (caps : List Str) (q : Str)
    (h : ∀ cap ∈ caps, (f cap).1 ≠ q) :
    ∀ (m : GoMap),
      GoMap.get (caps.foldl (fun m cap => GoMap.set m (f cap).1 (f cap).2) m) q = GoMap.get m q := by
  induction caps with
  | nil => intro m; rfl
  | cons c caps ih =>
    intro m
    rw [List.foldl_cons, ih (fun cap hc => h cap (List.mem_cons_of_mem _ hc)),
      get_set_ne _ _ _ _ (fun e => h c (List.mem_cons_self _ _) e.symm)]

/-! ## Lemmas on the scan of `lit(.+)` -/

theorem endsNl_tail {x : Char} {c : Str} (h : endsNl (x :: c) = true) : endsNl c = true := by
  cases c with
  | nil => rfl
  | cons y t => simpa [endsNl] using h

theorem nl_mem_of_endsNl {c : Str} (h : endsNl c = true) (hc : c ≠ []) : '\n' ∈ c := by
  induction c with
  | nil => exact absurd rfl hc
  | cons x c ih =>
    cases c with
    | nil =>
      have : x = '\n' := by simpa [endsNl] using h
      simp [this]
    | cons y t =>
      exact List.mem_cons_of_mem _ (ih (endsNl_tail h) (List.cons_ne_nil _ _))

theorem endsNl_append {c d : Str} (hc : endsNl c = true) (hd : endsNl d = true) :
    endsNl (c ++ d) = true := by
  induction c with
  | nil => simpa using hd
  | cons x c ih =>
    cases c with
    | nil =>
      cases d with
      | nil => simpa using hc
      | cons y t => simpa [endsNl] using hd
    | cons y t =>
      have := ih (endsNl_tail hc)
      simpa [endsNl] using this

theorem endsNl_append_nl (c : Str) : endsNl (c ++ ['\n']) = true := by
  induction c with
  | nil => rfl
  | cons x c ih =>
    cases c with
    | nil => rfl
    | cons y t => simpa [endsNl] using ih

theorem takeWhile_isDot_append {c : Str} (d : Str) (h : '\n' ∈ c) :
    (c ++ d).takeWhile isDot = c.takeWhile isDot := by
  induction c with
  | nil => simp at h
  | cons x c ih =>
    by_cases hx : x = '\n'
    · subst hx
      simp [isDot]
    · have hc : '\n' ∈ c := by
        rcases List.mem_cons.1 h with h | h
        · exact absurd h.symm hx
        · exact h
      have hd : isDot x = true := by simpa [isDot] using hx
      simp [List.takeWhile_cons, hd, ih hc]

theorem takeWhile_isDot_of_not_mem {t : Str} (h : '\n' ∉ t) (d : Str) :
    (t ++ '\n' :: d).takeWhile isDot = t := by
  induction t with
  | nil => simp [isDot]
  | cons x t ih =>
    have hx : isDot x = true := by
      have : x ≠ '\n' := fun e => h (by simp [e])
      simpa [isDot] using this
    have ht : '\n' ∉ t := fun e => h (List.mem_cons_of_mem _ e)
    simp [List.takeWhile_cons, hx, ih ht]

theorem matchAt_append (lit : Str) (hlit : '\n' ∉ lit) {c : Str} (d : Str) (h : '\n' ∈ c) :
    matchAt lit (c ++ d) = matchAt lit c := by
  induction lit generalizing c with
  | nil => simp [matchAt, takeWhile_isDot_append d h]
  | cons a lit ih =>
    cases c with
    | nil => simp at h
    | cons x c =>
      simp only [List.cons_append, matchAt]
      by_cases hax : a = x
      · subst hax
        have ha : a ≠ '\n' := fun e => hlit (by simp [e])
        have hc : '\n' ∈ c := by
          rcases List.mem_cons.1 h with h | h
          · exact absurd h.symm ha
          · exact h
        simp [ih (fun e => hlit (List.mem_cons_of_mem _ e)) hc]
      · simp [hax]

/-- A match covers the literal and the submatch, and both lie on the first line. -/
theorem matchAt_takeWhile (lit : Str) (hlit : '\n' ∉ lit) {s cap : Str}
    (h : matchAt lit s = some cap) : s.takeWhile isDot = lit ++ cap ∧ cap ≠ [] := by
  induction lit generalizing s with
  | nil =>
    simp only [matchAt] at h
    split at h
    · exact absurd h (by simp)
    · rename_i hne
      have : List.takeWhile isDot s = cap := by simpa using h
      subst this
      exact ⟨rfl, by simpa using hne⟩
  | cons a lit ih =>
    cases s with
    | nil => simp [matchAt] at h
    | cons x s =>
      simp only [matchAt] at h
      by_cases hax : a = x
      · subst hax
        simp only [if_true] at h
        have ha : isDot a = true := by
          have : a ≠ '\n' := fun e => hlit (by simp [e])
          simpa [isDot] using this
        obtain ⟨h1, h2⟩ := ih (fun e => hlit (List.mem_cons_of_mem _ e)) h
        exact ⟨by simp [List.takeWhile_cons, ha, h1], h2⟩
      · simp [hax] at h

theorem matchAt_nl (lit : Str) (hlit : '\n' ∉ lit) (d : Str) : matchAt lit ('\n' :: d) = none := by
  cases lit with
  | nil => simp [matchAt, isDot]
  | cons a lit =>
    have ha : a ≠ '\n' := fun e => hlit (by simp [e])
    simp [matchAt, ha]

theorem matchAt_self (lit t d : Str) (ht : t ≠ []) (hnl : '\n' ∉ t) :
    matchAt lit (lit ++ t ++ '\n' :: d) = some t := by
  induction lit with
  | nil =>
    simp only [matchAt, List.nil_append, takeWhile_isDot_of_not_mem hnl d]
    cases t with
    | nil => exact absurd rfl ht
    | cons x t => simp
  | cons a lit ih => simpa [matchAt] using ih

theorem findAllLit_zero (lit : Str) (c : Char) (cs : Str) :
    findAllLit lit 0 (c :: cs) =
      match matchAt lit (c :: cs) with
      | some cap => cap :: findAllLit lit (lit.length + cap.length - 1) cs
      | none => findAllLit lit 0 cs := rfl

theorem findAllLit_succ (lit : Str) (k : Nat) (c : Char) (cs : Str) :
    findAllLit lit (k + 1) (c :: cs) = findAllLit lit k cs := rfl

theorem findAllLit_skip (lit : Str) (xs d : Str) :
    findAllLit lit xs.length (xs ++ d) = findAllLit lit 0 d := by
  induction xs with
  | nil => rfl
  | cons x xs ih =>
    rw [List.length_cons, List.cons_append, findAllLit_succ]
    exact ih

/-- The scan of a text that ends with a line feed is not affected by what
follows the text. -/
theorem findAllLit_append (lit : Str) (hlit : '\n' ∉ lit) (c : Str) :
    ∀ (k : Nat) (d : Str), endsNl c = true → k ≤ (c.takeWhile isDot).length →
      findAllLit lit k (c ++ d) = findAllLit lit k c ++ findAllLit lit 0 d := by
  induction c with
  | nil =>
    intro k d _ hk
    have : k = 0 := by simpa using hk
    subst this
    simp [findAllLit]
  | cons x c ih =>
    intro k d hc hk
    cases k with
    | zero =>
      have hmem : '\n' ∈ x :: c := nl_mem_of_endsNl hc (List.cons_ne_nil _ _)
      have hm := matchAt_append lit hlit d hmem
      simp only [List.cons_append] at hm
      rw [List.cons_append, findAllLit_zero, findAllLit_zero, hm]
      cases hcap : matchAt lit (x :: c) with
      | none => exact ih 0 d (endsNl_tail hc) (Nat.zero_le _)
      | some cap =>
        obtain ⟨h1, h2⟩ := matchAt_takeWhile lit hlit hcap
        have hx : isDot x = true := by
          by_contra hx
          have hx2 : isDot x = false := by simpa using hx
          have h3 : List.takeWhile isDot (x :: c) = [] := by simp [List.takeWhile_cons, hx2]
          rw [h3] at h1
          have h4 : lit ++ cap = [] := h1.symm
          exact h2 (List.append_eq_nil.1 h4).2
        have hlen : (List.takeWhile isDot c).length + 1 = lit.length + cap.length := by
          have := congrArg List.length h1
          simpa [List.takeWhile_cons, hx] using this
        have := ih (lit.length + cap.length - 1) d (endsNl_tail hc) (by omega)
        simp [this]
    | succ k =>
      have hx : isDot x = true := by
        by_contra hx
        have hx2 : isDot x = false := by simpa using hx
        simp [List.takeWhile_cons, hx2] at hk
      have hk2 : k ≤ (List.takeWhile isDot c).length := by
        simpa [List.takeWhile_cons, hx] using hk
      rw [List.cons_append, findAllLit_succ, findAllLit_succ]
      exact ih k d (endsNl_tail hc) hk2

/-- A line made of the literal and a non-empty text yields that text. -/
theorem findAllLit_line (lit t : Str) (hlit : '\n' ∉ lit) (ht : t ≠ []) (hnl : '\n' ∉ t) :
    findAllLit lit 0 (lit ++ t ++ ['\n']) = [t] := by
  have hm := matchAt_self lit t [] ht hnl
  have hne : lit ++ t ≠ [] := by simp [ht]
  obtain ⟨x, ys, hxy⟩ := List.exists_cons_of_ne_nil hne
  have hlen : lit.length + t.length - 1 = ys.length := by
    have := congrArg List.length hxy
    simp at this
    omega
  rw [hxy] at hm ⊢
  rw [List.cons_append] at hm ⊢
  rw [findAllLit_zero, hm]
  simp only [hlen]
  rw [findAllLit_skip, findAllLit_zero, matchAt_nl lit hlit]
  rfl

/-- The scan of a text followed by one more line. -/
theorem findAllLit_append_line (lit c t : Str) (hlit : '\n' ∉ lit) (hc : endsNl c = true)
    (ht : t ≠ []) (hnl : '\n' ∉ t) :
    findAllLit lit 0 (c ++ (lit ++ t ++ ['\n'])) = findAllLit lit 0 c ++ [t] := by
  rw [findAllLit_append lit hlit c 0 _ hc (Nat.zero_le _), findAllLit_line lit t hlit ht hnl]

/-! ## Lemmas on splitting at hyphens -/

theorem splitOn_ne_nil (sep : Char) (s : Str) : splitOn sep s ≠ [] := by
  cases s with
  | nil => simp [splitOn]
  | cons c cs =>
    simp only [splitOn]
    split
    · simp
    · split <;> simp

theorem splitOn_cons (sep c : Char) (cs : Str) :
    splitOn sep (c :: cs) =
      if c = sep then [] :: splitOn sep cs
      else
        match splitOn sep cs with
        | [] => [[c]]
        | h :: t => (c :: h) :: t := rfl

theorem splitOn_of_not_mem (sep : Char) {s : Str} (h : sep ∉ s) : splitOn sep s = [s] := by
  induction s with
  | nil => rfl
  | cons c cs ih =>
    have hc : c ≠ sep := fun e => h (by simp [e])
    have hcs : sep ∉ cs := fun e => h (List.mem_cons_of_mem _ e)
    simp [splitOn, hc, ih hcs]

theorem splitOn_append_sep (sep : Char) (a b : Str) :
    splitOn sep (a ++ sep :: b) = splitOn sep a ++ splitOn sep b := by
  induction a with
  | nil => simp [splitOn]
  | cons c a ih =>
    by_cases hc : c = sep
    · simp [splitOn, hc, ih]
    · rw [List.cons_append, splitOn_cons, splitOn_cons, if_neg hc, if_neg hc, ih]
      cases hs : splitOn sep a with
      | nil => exact absurd hs (splitOn_ne_nil sep a)
      | cons h t => simp

theorem joinWith_cons_cons (sep c : Char) (h : Str) (t : List Str) :
    joinWith sep ((c :: h) :: t) = c :: joinWith sep (h :: t) := by
  cases t <;> simp [joinWith]

theorem joinWith_splitOn (sep : Char) (s : Str) : joinWith sep (splitOn sep s) = s := by
  induction s with
  | nil => rfl
  | cons c cs ih =>
    by_cases hc : c = sep
    · cases hs : splitOn sep cs with
      | nil => exact absurd hs (splitOn_ne_nil sep cs)
      | cons h t =>
        rw [hs] at ih
        simp [splitOn, hc, hs, joinWith, ih]
    · cases hs : splitOn sep cs with
      | nil => exact absurd hs (splitOn_ne_nil sep cs)
      | cons h t =>
        rw [hs] at ih
        simp [splitOn, hc, hs, joinWith_cons_cons, ih]

/-- A text whose last hyphen is followed by `v` splits into what precedes that
hyphen and `v`. -/
theorem splitEntry_eq (n v : Str) (hv : '-' ∉ v) : splitEntry (n ++ '-' :: v) = (n, v) := by
  simp [splitEntry, splitOn_append_sep, splitOn_of_not_mem '-' hv, joinWith_splitOn]

theorem exists_last_sep (sep : Char) {t : Str} (h : sep ∈ t) :
    ∃ n v, t = n ++ sep :: v ∧ sep ∉ v := by
  induction t with
  | nil => simp at h
  | cons x t ih =>
    by_cases ht : sep ∈ t
    · obtain ⟨n, v, e, hv⟩ := ih ht
      exact ⟨x :: n, v, by simp [e], hv⟩
    · rcases List.mem_cons.1 h with e | e
      · exact ⟨[], t, by simp [e], ht⟩
      · exact absurd e ht

/-! ## Lemmas on the resolver and on `Add` -/

theorem searchFunction_indiv_head (w : World) (n : Str) (infos : List PkgInfo)
    (h : searchFunction w n true = .ok infos) : infos.head?.map PkgInfo.Name = some n := by
  unfold searchFunction at h
  cases hs : w.search n with
  | error e => simp [hs] at h
  | ok results =>
    simp only [hs] at h
    split at h
    · cases h
    · split at h
      · split at h
        · cases h
        · rename_i hcond
          injection h with h
          subst h
          by_contra hne
          exact hcond ⟨trivial, Or.inr hne⟩
      · cases h
      · cases h

theorem info_name (w : World) (n : Str) (r : PkgInfo) (h : Info w n = .ok r) : r.Name = n := by
  unfold Info at h
  split at h
  · rename_i info rest hs
    injection h with h
    subst h
    have := searchFunction_indiv_head w n _ hs
    simpa using this
  · cases h
  · cases h
  · cases h

theorem add_single (w : World) (fs : FS) (n v : Str) (info : PkgInfo)
    (h : Info w n = .ok info) :
    Add w fs [(n, v)] = .ok (addResolved (ensureInit fs) n v info) := by
  simp [Add, addLoop, h]

theorem addResolved_cabal (fs : FS) (n v : Str) (info : PkgInfo) :
    (addResolved fs n v info).cabal = appendFile fs.cabal (specLine n) := by
  unfold addResolved
  simp only []
  split
  · split <;> rfl
  · rfl

theorem endsNl_initialCabal : endsNl initialCabal = true := by decide

theorem endsNl_initialStack : endsNl initialStack = true := by decide

theorem endsNl_specLine (n : Str) : endsNl (specLine n) = true := by
  unfold specLine
  exact endsNl_append_nl _

theorem specLit_no_nl : '\n' ∉ specLit := by decide

theorem lockLit_no_nl : '\n' ∉ lockLit := by decide

/-- After a line for `n` is appended to a content of `project.cabal` that is
empty or ends with a line feed, `ListSpecfile` lists `n`. -/
theorem listSpec_append_specLine (c n : Str) (hc : endsNl c = true) (hn : n ≠ [])
    (hnl : '\n' ∉ n) : GoMap.get (listSpec (c ++ specLine n)) n = some [] := by
  unfold listSpec specLine
  rw [findAllLit_append_line specLit c n specLit_no_nl hc hn hnl]
  exact get_foldl_concat (fun cap => (cap, [])) _ n

theorem ensureInit_cabal (fs : FS) (hfs : ∀ c, fs.cabal = some c → endsNl c = true) :
    ∃ c, (ensureInit fs).cabal = some c ∧ endsNl c = true := by
  unfold ensureInit
  cases hc : fs.cabal with
  | none => exact ⟨initialCabal, rfl, endsNl_initialCabal⟩
  | some c => exact ⟨c, by simp [hc], hfs c hc⟩

/-! ## Lemmas on `strings.Contains` and `strings.Replace` -/

theorem contains_cons (c : Char) (cs sub : Str) :
    contains (c :: cs) sub = (sub.isPrefixOf (c :: cs) || contains cs sub) := rfl

theorem isPrefixOf_append_self (a b : Str) : a.isPrefixOf (a ++ b) = true := by
  induction a with
  | nil => simp [List.isPrefixOf]
  | cons x a ih => simp [List.isPrefixOf]

theorem isPrefixOf_of_append (a b s : Str) (h : (a ++ b).isPrefixOf s = true) :
    a.isPrefixOf s = true := by
  induction a generalizing s with
  | nil => simp [List.isPrefixOf]
  | cons x a ih =>
    cases s with
    | nil => simp [List.isPrefixOf] at h
    | cons y s =>
      simp only [List.cons_append, List.isPrefixOf, Bool.and_eq_true] at h ⊢
      exact ⟨h.1, ih s h.2⟩

theorem mem_of_isPrefixOf {old s : Str} (h : old.isPrefixOf s = true) {x : Char}
    (hx : x ∈ old) : x ∈ s := by
  induction old generalizing s with
  | nil => simp at hx
  | cons a old ih =>
    cases s with
    | nil => simp [List.isPrefixOf] at h
    | cons y s =>
      simp only [List.isPrefixOf, Bool.and_eq_true, beq_iff_eq] at h
      rcases List.mem_cons.1 hx with e | e
      · simp [e, h.1]
      · exact List.mem_cons_of_mem _ (ih h.2 e)

/-- A text that lacks a character of `old` has no occurrence of `old`. -/
theorem contains_of_not_mem {old s : Str} {x : Char} (hx : x ∈ old) (hs : x ∉ s) :
    contains s old = false := by
  induction s with
  | nil =>
    cases old with
    | nil => simp at hx
    | cons a old => rfl
  | cons y s ih =>
    rw [contains_cons]
    have h1 : old.isPrefixOf (y :: s) = false := by
      by_contra h
      have h2 : old.isPrefixOf (y :: s) = true := by simpa using h
      exact hs (mem_of_isPrefixOf h2 hx)
    rw [h1, ih (fun e => hs (List.mem_cons_of_mem _ e))]
    rfl

/-- A text with an occurrence of `a ++ b` has an occurrence of `a`. -/
theorem contains_of_contains_append (a b s : Str) (h : contains s (a ++ b) = true) :
    contains s a = true := by
  induction s with
  | nil =>
    cases a with
    | nil => rfl
    | cons x a => simp [contains] at h
  | cons y s ih =>
    rw [contains_cons, Bool.or_eq_true] at h ⊢
    rcases h with h | h
    · exact Or.inl (isPrefixOf_of_append a b _ h)
    · exact Or.inr (ih h)

/-- An occurrence of a one-line text at the head of `s ++ t` lies within `s`
as soon as `s` has a line feed. -/
theorem isPrefixOf_of_nl (body : Str) (hb : '\n' ∉ body) {s : Str} (t : Str) (hs : '\n' ∈ s)
    (h : (body ++ ['\n']).isPrefixOf (s ++ t) = true) : (body ++ ['\n']).isPrefixOf s = true := by
  induction body generalizing s with
  | nil =>
    cases s with
    | nil => simp at hs
    | cons y s =>
      simp only [List.nil_append, List.cons_append, List.isPrefixOf, Bool.and_eq_true] at h ⊢
      exact ⟨h.1, trivial⟩
  | cons a body ih =>
    cases s with
    | nil => simp at hs
    | cons y s =>
      simp only [List.cons_append, List.isPrefixOf, Bool.and_eq_true, beq_iff_eq] at h ⊢
      have ha : a ≠ '\n' := fun e => hb (by simp [e])
      have hs2 : '\n' ∈ s := by
        rcases List.mem_cons.1 hs with e | e
        · exact absurd (h.1 ▸ e.symm) ha
        · exact e
      exact ⟨h.1, ih (fun e => hb (List.mem_cons_of_mem _ e)) hs2 h.2⟩

theorem replaceScan_zero (old new : Str) (c : Char) (cs : Str) :
    replaceScan old new 0 (c :: cs) =
      if old.isPrefixOf (c :: cs) then new ++ replaceScan old new (old.length - 1) cs
      else c :: replaceScan old new 0 cs := rfl

theorem replaceScan_succ (old new : Str) (k : Nat) (c : Char) (cs : Str) :
    replaceScan old new (k + 1) (c :: cs) = replaceScan old new k cs := rfl

theorem replaceScan_skip (old new xs d : Str) :
    replaceScan old new xs.length (xs ++ d) = replaceScan old new 0 d := by
  induction xs with
  | nil => rfl
  | cons x xs ih =>
    rw [List.length_cons, List.cons_append, replaceScan_succ]
    exact ih

/-- An occurrence at the head of the text is dropped. -/
theorem replaceScan_self (old d : Str) (ho : old ≠ []) :
    replaceScan old [] 0 (old ++ d) = replaceScan old [] 0 d := by
  obtain ⟨x, ys, rfl⟩ := List.exists_cons_of_ne_nil ho
  have hp := isPrefixOf_append_self (x :: ys) d
  rw [List.cons_append] at hp ⊢
  rw [replaceScan_zero, if_pos hp]
  simpa using replaceScan_skip (x :: ys) [] ys d

/-- A text without occurrence is left as it is. -/
theorem replaceScan_of_not_contains (old new s : Str) (h : contains s old = false) :
    replaceScan old new 0 s = s := by
  induction s with
  | nil => rfl
  | cons c s ih =>
    rw [contains_cons, Bool.or_eq_false_iff] at h
    rw [replaceScan_zero, h.1, ih h.2]
    simp

/-- The scan passes over a text that ends with a line feed and has no
occurrence of the one-line text looked for. -/
theorem replaceScan_append (body c d : Str) (hb : '\n' ∉ body) (hc : endsNl c = true)
    (h : contains c (body ++ ['\n']) = false) :
    replaceScan (body ++ ['\n']) [] 0 (c ++ d) = c ++ replaceScan (body ++ ['\n']) [] 0 d := by
  induction c with
  | nil => rfl
  | cons x c ih =>
    rw [contains_cons, Bool.or_eq_false_iff] at h
    have hp : (body ++ ['\n']).isPrefixOf (x :: (c ++ d)) = false := by
      by_contra hp
      have h3 : (body ++ ['\n']).isPrefixOf (x :: c ++ d) = true := by simpa using hp
      have h4 := isPrefixOf_of_nl body hb d (nl_mem_of_endsNl hc (List.cons_ne_nil _ _)) h3
      rw [h4] at h
      exact absurd h.1 (by simp)
    rw [List.cons_append, replaceScan_zero, hp, ih (endsNl_tail hc) h.2]
    simp

theorem replaceAll_eq_scan (s old : Str) (ho : old ≠ []) :
    replaceAll s old [] = replaceScan old [] 0 s := by
  cases old with
  | nil => exact absurd rfl ho
  | cons x old => rfl

/-- Removing a line that was appended to a text which ends with a line feed
and has no occurrence of the line gives the text back. -/
theorem replaceAll_appended (body c : Str) (hb : '\n' ∉ body) (hc : endsNl c = true)
    (h : contains c (body ++ ['\n']) = false) :
    replaceAll (c ++ (body ++ ['\n'])) (body ++ ['\n']) [] = c := by
  rw [replaceAll_eq_scan _ _ (by simp)]
  have := replaceScan_append body c ((body ++ ['\n']) ++ []) hb hc h
  rw [replaceScan_self _ _ (by simp)] at this
  simpa [replaceScan] using this

/-! ## Lemmas on the listings -/

theorem exists_takeWhile_nl {s : Str} (h : '\n' ∈ s) :
    ∃ rest, s = s.takeWhile isDot ++ '\n' :: rest := by
  induction s with
  | nil => simp at h
  | cons x s ih =>
    by_cases hx : x = '\n'
    · subst hx
      exact ⟨s, by simp [isDot]⟩
    · have hs : '\n' ∈ s := by
        rcases List.mem_cons.1 h with e | e
        · exact absurd e.symm hx
        · exact e
      obtain ⟨rest, e⟩ := ih hs
      have hd : isDot x = true := by simpa [isDot] using hx
      refine ⟨rest, ?_⟩
      rw [List.takeWhile_cons, if_pos hd, List.cons_append, ← e]

/-- Every submatch found in a text that ends with a line feed stands there as
a line tail: the literal, the submatch and a line feed. -/
theorem contains_of_mem_findAllLit (lit : Str) (hlit : '\n' ∉ lit) (c : Str) :
    ∀ (k : Nat) (t : Str), endsNl c = true → t ∈ findAllLit lit k c →
      contains c (lit ++ t ++ ['\n']) = true := by
  induction c with
  | nil => intro k t _ h; simp [findAllLit] at h
  | cons x c ih =>
    intro k t hc h
    rw [contains_cons, Bool.or_eq_true]
    cases k with
    | succ k =>
      rw [findAllLit_succ] at h
      exact Or.inr (ih k t (endsNl_tail hc) h)
    | zero =>
      rw [findAllLit_zero] at h
      cases hm : matchAt lit (x :: c) with
      | none =>
        rw [hm] at h
        exact Or.inr (ih 0 t (endsNl_tail hc) h)
      | some cap =>
        rw [hm] at h
        rcases List.mem_cons.1 h with e | e
        · subst e
          left
          obtain ⟨h1, _⟩ := matchAt_takeWhile lit hlit hm
          obtain ⟨rest, e2⟩ := exists_takeWhile_nl (nl_mem_of_endsNl hc (List.cons_ne_nil _ _))
          rw [h1] at e2
          rw [e2]
          simp
        · exact Or.inr (ih _ t (endsNl_tail hc) e)

/-- A text without occurrence of the literal yields no submatch. -/
theorem findAllLit_of_not_contains (lit : Str) (hlit : '\n' ∉ lit) (c : Str)
    (h : contains c lit = false) : findAllLit lit 0 c = [] := by
  induction c with
  | nil => rfl
  | cons x c ih =>
    rw [contains_cons, Bool.or_eq_false_iff] at h
    rw [findAllLit_zero]
    cases hm : matchAt lit (x :: c) with
    | none => exact ih h.2
    | some cap =>
      exfalso
      obtain ⟨h1, _⟩ := matchAt_takeWhile lit hlit hm
      have h2 : lit.isPrefixOf (x :: c) = true := by
        have h3 := isPrefixOf_append_self lit (cap ++ List.dropWhile isDot (x :: c))
        rw [← List.append_assoc, ← h1, List.takeWhile_append_dropWhile] at h3
        exact h3
      rw [h2] at h
      exact absurd h.1 (by simp)

theorem get_eq_none_iff (m : GoMap) (q : Str) : GoMap.get m q = none ↔ q ∉ GoMap.keys m := by
  induction m with
  | nil => simp [GoMap.get, GoMap.keys]
  | cons p m ih =>
    obtain ⟨a, b⟩ := p
    by_cases hq : q = a
    · subst hq
      simp [GoMap.get, GoMap.keys, List.lookup_cons]
    · have hq2 : (q == a) = false := by simpa using hq
      simp only [GoMap.get, GoMap.keys, List.lookup_cons, hq2, List.map_cons, List.mem_cons, hq,
        false_or]
      exact ih

theorem mem_keys_of_get {m : GoMap} {q v : Str} (h : GoMap.get m q = some v) :
    q ∈ GoMap.keys m := by
  by_contra hq
  rw [(get_eq_none_iff m q).2 hq] at h
  cases h

/-- The keys of `ListSpecfile` are the submatches. -/
theorem mem_keys_listSpec (c q : Str) :
    q ∈ GoMap.keys (listSpec c) ↔ q ∈ findAllLit specLit 0 c := by
  unfold listSpec
  have := mem_keys_foldl (fun cap => (cap, [])) (findAllLit specLit 0 c) [] q
  simpa [GoMap.keys] using this

/-- The keys of `ListLockfile` are the name sides of the submatches. -/
theorem mem_keys_listLock (c q : Str) :
    q ∈ GoMap.keys (listLock c) ↔ ∃ cap ∈ findAllLit lockLit 0 c, (splitEntry cap).1 = q := by
  unfold listLock
  have := mem_keys_foldl splitEntry (findAllLit lockLit 0 c) [] q
  simpa [GoMap.keys] using this

/-! ## Lemmas on the resolved version -/

theorem nl_not_mem_takeWhile_isDot (l : Str) : '\n' ∉ l.takeWhile isDot := by
  intro h
  have := List.mem_takeWhile_imp h
  simp [isDot] at this

theorem cabalMatchAt_value {s key value : Str} {len : Nat}
    (h : cabalMatchAt s = some (key, value, len)) : '\n' ∉ value := by
  unfold cabalMatchAt at h
  simp only [] at h
  split at h
  · split at h
    · split at h
      · injection h with h
        injection h with _ h
        injection h with h _
        subst h
        decide
      · cases h
    · injection h with h
      injection h with _ h
      injection h with h _
      subst h
      exact nl_not_mem_takeWhile_isDot _
  · cases h

theorem cabalFindAll_value (s : Str) :
    ∀ (k : Nat) (kv : Str × Str), kv ∈ cabalFindAll k s → '\n' ∉ kv.2 := by
  induction s with
  | nil => intro k kv h; simp [cabalFindAll] at h
  | cons x s ih =>
    intro k kv h
    cases k with
    | succ k => exact ih k kv h
    | zero =>
      simp only [cabalFindAll] at h
      split at h
      · rename_i key value len hm
        rcases List.mem_cons.1 h with e | e
        · subst e
          exact cabalMatchAt_value hm
        · exact ih _ kv e
      · exact ih 0 kv h

theorem foldl_set_values (P : Str → Prop) (caps : List (Str × Str)) :
    ∀ (m : GoMap), (∀ p ∈ m, P p.2) → (∀ kv ∈ caps, P kv.2) →
      ∀ p ∈ caps.foldl (fun m kv => GoMap.set m kv.1 kv.2) m, P p.2 := by
  induction caps with
  | nil => intro m hm _ p hp; exact hm p hp
  | cons c caps ih =>
    intro m hm hc
    rw [List.foldl_cons]
    apply ih
    · intro p hp
      simp only [GoMap.set, List.mem_cons, List.mem_filter] at hp
      rcases hp with e | ⟨hp, _⟩
      · subst e
        exact hc c (List.mem_cons_self _ _)
      · exact hm p hp
    · intro kv hkv
      exact hc kv (List.mem_cons_of_mem _ hkv)

theorem lookup_mem (m : GoMap) (q v : Str) (h : m.lookup q = some v) : ∃ p ∈ m, p.2 = v := by
  induction m with
  | nil => simp at h
  | cons p m ih =>
    obtain ⟨a, b⟩ := p
    rw [List.lookup_cons] at h
    split at h
    · injection h with h
      exact ⟨(a, b), List.mem_cons_self _ _, h⟩
    · obtain ⟨p, hp, e⟩ := ih h
      exact ⟨p, List.mem_cons_of_mem _ hp, e⟩

/-- A value read from the metadata document has no line feed. -/
theorem cabalData_getD_no_nl (cabal q : Str) : '\n' ∉ GoMap.getD (cabalData cabal) q := by
  unfold GoMap.getD
  cases h : (cabalData cabal).lookup q with
  | none => simp
  | some v =>
    obtain ⟨p, hp, e⟩ := lookup_mem _ q v h
    have := foldl_set_values (fun v => '\n' ∉ v) (cabalFindAll 0 cabal) [] (by simp)
      (fun kv hkv => cabalFindAll_value cabal 0 kv hkv) p hp
    simpa [e] using this

theorem collect_mkInfo (w : World) (hits : List Hit) :
    ∀ infos, collect w hits = .ok infos →
      ∀ i ∈ infos, ∃ result cabal, i = mkInfo result cabal := by
  induction hits with
  | nil =>
    intro infos h i hi
    simp only [collect] at h
    injection h with h
    subst h
    simp at hi
  | cons r rest ih =>
    intro infos h i hi
    simp only [collect] at h
    split at h
    · exact ih infos h i hi
    · split at h
      · cases h
      · split at h
        · cases h
        · rename_i cabal _
          split at h
          · rename_i infos2 hc
            injection h with h
            subst h
            rcases List.mem_cons.1 hi with e | e
            · exact ⟨r, cabal, e⟩
            · exact ih infos2 hc i e
          · cases h
          · cases h

theorem searchFunction_mkInfo (w : World) (n : Str) (indiv : Bool) (infos : List PkgInfo)
    (h : searchFunction w n indiv = .ok infos) :
    ∀ i ∈ infos, ∃ result cabal, i = mkInfo result cabal := by
  unfold searchFunction at h
  cases hs : w.search n with
  | error e => simp [hs] at h
  | ok results =>
    simp only [hs] at h
    split at h
    · cases h
    · split at h
      · rename_i fin hc
        split at h
        · cases h
        · injection h with h
          subst h
          exact collect_mkInfo w _ _ hc
      · cases h
      · cases h

/-- The version of a resolved package has no line feed. -/
theorem info_version_no_nl (w : World) (n : Str) (info : PkgInfo) (h : Info w n = .ok info) :
    '\n' ∉ info.Version := by
  unfold Info at h
  split at h
  · rename_i i rest hs
    injection h with h
    subst h
    obtain ⟨r, cabal, e⟩ := searchFunction_mkInfo w n true _ hs i (List.mem_cons_self _ _)
    rw [e]
    exact cabalData_getD_no_nl cabal _
  · cases h
  · cases h
  · cases h

/-! ## Lemmas on one round of `Add` -/

theorem addResolved_stack_curated (fs : FS) (n v : Str) (info : PkgInfo)
    (h : onStackage info = true) : (addResolved fs n v info).stack = fs.stack := by
  simp [addResolved, h]

/-- Outside the curated set the lockfile gets the section marker, unless the
text `extra-deps` is there already, and then the line of the entry. -/
theorem addResolved_stack_extra (fs : FS) (n v : Str) (info : PkgInfo)
    (h : onStackage info = false) :
    (addResolved fs n v info).stack =
      appendFile
        (appendFile fs.stack
          (if contains (readFile fs.stack) extraDepsKey then [] else extraDepsLine))
        (lockLine n (pinnedVersion v info)) := by
  obtain ⟨cab, st⟩ := fs
  unfold addResolved
  simp only [h]
  cases hc : contains (readFile st) extraDepsKey <;> cases st <;> simp [appendFile]

theorem lockLine_eq (n v : Str) : lockLine n v = lockLit ++ (n ++ '-' :: v) ++ ['\n'] := by
  simp [lockLine]

theorem endsNl_lockLine (n v : Str) : endsNl (lockLine n v) = true := by
  unfold lockLine
  exact endsNl_append_nl _

theorem endsNl_marker (c : Str) (b : Bool) (hc : endsNl c = true) :
    endsNl (c ++ (if b then [] else extraDepsLine)) = true := by
  cases b
  · exact endsNl_append hc (by decide)
  · simpa using hc

theorem findAllLit_marker (c : Str) (b : Bool) (hc : endsNl c = true) :
    findAllLit lockLit 0 (c ++ (if b then [] else extraDepsLine)) = findAllLit lockLit 0 c := by
  cases b
  · rw [findAllLit_append lockLit lockLit_no_nl c 0 _ hc (Nat.zero_le _)]
    have : findAllLit lockLit 0 extraDepsLine = [] := by decide
    simp [this]
  · simp

/-- The submatches of a content of `stack.yaml` after one more entry. -/
theorem findAllLit_lock_added (L n v : Str) (b : Bool) (hL : endsNl L = true)
    (hn : '\n' ∉ n) (hv : '\n' ∉ v) :
    findAllLit lockLit 0 ((L ++ (if b then [] else extraDepsLine)) ++ lockLine n v)
      = findAllLit lockLit 0 L ++ [n ++ '-' :: v] := by
  rw [lockLine_eq, findAllLit_append_line lockLit _ _ lockLit_no_nl (endsNl_marker L b hL)
    (by simp) (by simp [hn, hv]), findAllLit_marker L b hL]

/-- After an entry is appended, `ListLockfile` maps the name to the version. -/
theorem listLock_added (L n v : Str) (b : Bool) (hL : endsNl L = true)
    (hn : '\n' ∉ n) (hv : '\n' ∉ v) (hh : '-' ∉ v) :
    GoMap.get (listLock ((L ++ (if b then [] else extraDepsLine)) ++ lockLine n v)) n = some v := by
  unfold listLock
  rw [findAllLit_lock_added L n v b hL hn hv]
  have := get_foldl_concat splitEntry (findAllLit lockLit 0 L) (n ++ '-' :: v)
  rw [splitEntry_eq n v hh] at this
  exact this

/-! ## Lemmas on `Remove` after `Add` -/

/-- The split of a token with a hyphen: name, hyphen and version make up the
token, and the version has no hyphen. -/
theorem splitEntry_spec {t : Str} (hh : '-' ∈ t) :
    (splitEntry t).1 ++ '-' :: (splitEntry t).2 = t ∧ '-' ∉ (splitEntry t).2 := by
  obtain ⟨n, v, e, hv⟩ := exists_last_sep '-' hh
  rw [e, splitEntry_eq n v hv]
  exact ⟨rfl, hv⟩

theorem splitEntry_of_not_mem {t : Str} (hh : '-' ∉ t) : splitEntry t = ([], t) := by
  simp [splitEntry, splitOn_of_not_mem '-' hh, joinWith]

theorem remove_single_cabal (fs : FS) (n : Str) :
    (Remove fs [n]).cabal = overwriteFile fs.cabal (replaceAll (readFile fs.cabal) (specLine n) []) :=
  rfl

theorem remove_single_stack (fs : FS) (n : Str) :
    (Remove fs [n]).stack = overwriteFile fs.stack
      (match GoMap.get (ListLockfile fs) n with
       | some val => replaceAll (readFile fs.stack) (lockLine n val) []
       | none => readFile fs.stack) := rfl

theorem add_pair (w : World) (fs : FS) (a va b vb : Str) (ia ib : PkgInfo)
    (ha : Info w a = .ok ia) (hb : Info w b = .ok ib) :
    Add w fs [(a, va), (b, vb)]
      = .ok (addResolved (addResolved (ensureInit fs) a va ia) b vb ib) := by
  simp [Add, addLoop, ha, hb]

theorem comma_mem_specLine (n : Str) : ',' ∈ specLine n := by
  simp [specLine, specLit]

theorem contains_initialCabal_specLine (n : Str) : contains initialCabal (specLine n) = false :=
  contains_of_not_mem (comma_mem_specLine n) (by decide)

theorem nl_not_mem_specBody {n : Str} (hn : '\n' ∉ n) : '\n' ∉ specLit ++ n := by
  intro h
  rcases List.mem_append.1 h with h | h
  · exact specLit_no_nl h
  · exact hn h

/-- Two texts without line feed of which one, followed by a line feed, starts
the other followed by a line feed, are the same text. -/
theorem eq_of_line_isPrefixOf (a b : Str) (hb : '\n' ∉ b)
    (h : (a ++ ['\n']).isPrefixOf (b ++ ['\n']) = true) : a = b := by
  induction a generalizing b with
  | nil =>
    cases b with
    | nil => rfl
    | cons y b =>
      simp only [List.nil_append, List.cons_append, List.isPrefixOf, Bool.and_eq_true,
        beq_iff_eq] at h
      exact absurd (by simp [← h.1]) hb
  | cons x a ih =>
    cases b with
    | nil =>
      simp only [List.nil_append, List.cons_append, List.isPrefixOf, Bool.and_eq_true,
        beq_iff_eq] at h
      have h2 := h.2
      cases a <;> simp [List.isPrefixOf] at h2
    | cons y b =>
      simp only [List.cons_append, List.isPrefixOf, Bool.and_eq_true, beq_iff_eq] at h
      rw [h.1, ih b (fun e => hb (List.mem_cons_of_mem _ e)) h.2]

/-- The line of one name has no occurrence of the line of another name, as
long as there is no comma in the name. -/
theorem contains_specLine_ne (foo bar : Str) (hne : foo ≠ bar)
    (hbn : '\n' ∉ bar) (hbc : ',' ∉ bar) : contains (specLine bar) (specLine foo) = false := by
  have h5 : contains (' ' :: (bar ++ ['\n'])) (specLine foo) = false :=
    contains_of_not_mem (comma_mem_specLine foo) (by simp [hbc])
  have h0 : (foo ++ ['\n']).isPrefixOf (bar ++ ['\n']) = false := by
    by_contra h
    have h1 : (foo ++ ['\n']).isPrefixOf (bar ++ ['\n']) = true := by simpa using h
    exact hne (eq_of_line_isPrefixOf foo bar hbn h1)
  have e : specLine bar = ' ' :: ' ' :: ' ' :: ' ' :: ',' :: (' ' :: (bar ++ ['\n'])) := by
    simp [specLine, specLit]
  rw [e, contains_cons, contains_cons, contains_cons, contains_cons, contains_cons, h5]
  simp [specLine, specLit, List.isPrefixOf, h0]

theorem listSpec_single (bar : Str) (hb : bar ≠ []) (hbn : '\n' ∉ bar) :
    listSpec (initialCabal ++ specLine bar) = [(bar, [])] := by
  unfold listSpec specLine
  rw [findAllLit_append_line specLit initialCabal bar specLit_no_nl endsNl_initialCabal hb hbn]
  have h0 : findAllLit specLit 0 initialCabal = [] := by decide
  rw [h0]
  rfl

/-- A name is no key of `ListSpecfile` when its line does not occur in a
`project.cabal` that ends with a line feed. -/
theorem not_mem_keys_listSpec (c n : Str) (hc : endsNl c = true)
    (h : contains c (specLine n) = false) : n ∉ GoMap.keys (listSpec c) := by
  intro hk
  rw [mem_keys_listSpec] at hk
  have := contains_of_mem_findAllLit specLit specLit_no_nl c 0 n hc hk
  unfold specLine at h
  rw [h] at this
  cases this

/-- The spec side of `Remove` after `Add`. -/
theorem spec_after_add_remove (fs0 : FS) (c n v : Str) (info : PkgInfo)
    (hc : fs0.cabal = some c) (hce : endsNl c = true) (hcc : contains c (specLine n) = false)
    (hnl : '\n' ∉ n) :
    n ∉ GoMap.keys (ListSpecfile (Remove (addResolved fs0 n v info) [n])) := by
  unfold ListSpecfile
  rw [remove_single_cabal, addResolved_cabal, hc]
  simp only [appendFile, overwriteFile, readFile, Option.map_some', Option.getD_some]
  have h1 : replaceAll (c ++ specLine n) (specLine n) [] = c :=
    replaceAll_appended (specLit ++ n) c (nl_not_mem_specBody hnl) hce hcc
  rw [h1]
  exact not_mem_keys_listSpec c n hce hcc

/-- A key of `ListSpecfile` has no line feed. -/
theorem nl_not_mem_of_mem_findAllLit (lit : Str) (hlit : '\n' ∉ lit) (c : Str) :
    ∀ (k : Nat) (t : Str), t ∈ findAllLit lit k c → '\n' ∉ t := by
  induction c with
  | nil => intro k t h; simp [findAllLit] at h
  | cons x c ih =>
    intro k t h
    cases k with
    | succ k =>
      rw [findAllLit_succ] at h
      exact ih k t h
    | zero =>
      rw [findAllLit_zero] at h
      cases hm : matchAt lit (x :: c) with
      | none =>
        rw [hm] at h
        exact ih 0 t h
      | some cap =>
        rw [hm] at h
        rcases List.mem_cons.1 h with e | e
        · subst e
          obtain ⟨h1, _⟩ := matchAt_takeWhile lit hlit hm
          intro hmem
          have h2 : '\n' ∈ List.takeWhile isDot (x :: c) := by
            rw [h1]
            exact List.mem_append_right _ hmem
          exact nl_not_mem_takeWhile_isDot _ h2
        · exact ih _ t e

theorem nl_not_mem_key_listSpec (c q : Str) (h : q ∈ GoMap.keys (listSpec c)) : '\n' ∉ q := by
  rw [mem_keys_listSpec] at h
  exact nl_not_mem_of_mem_findAllLit specLit specLit_no_nl c 0 q h

/-- A key of `ListLockfile` has no line feed. -/
theorem nl_not_mem_key_listLock (c q : Str) (h : q ∈ GoMap.keys (listLock c)) : '\n' ∉ q := by
  rw [mem_keys_listLock] at h
  obtain ⟨cap, hcap, e⟩ := h
  have hc := nl_not_mem_of_mem_findAllLit lockLit lockLit_no_nl c 0 cap hcap
  by_cases hh : '-' ∈ cap
  · obtain ⟨h2, _⟩ := splitEntry_spec hh
    rw [e] at h2
    intro hq
    apply hc
    rw [← h2]
    exact List.mem_append_left _ hq
  · rw [splitEntry_of_not_mem hh] at e
    rw [← e]
    simp

/-! ## Lemmas for `Remove` of an arbitrary name -/

/-- The line of a name does not start inside a text without comma that ends
with a line feed. -/
theorem isPrefixOf_commafree (r c d : Str) (hc : c ≠ []) (he : endsNl c = true)
    (hcc : ',' ∉ c) : (specLit ++ r).isPrefixOf (c ++ d) = false := by
  rcases c with _ | ⟨x1, _ | ⟨x2, _ | ⟨x3, _ | ⟨x4, _ | ⟨x5, c5⟩⟩⟩⟩⟩
  · exact absurd rfl hc
  · have : x1 = '\n' := by simpa [endsNl] using he
    subst this
    simp [specLit, List.isPrefixOf]
  · have : x2 = '\n' := by simpa [endsNl] using he
    subst this
    simp [specLit, List.isPrefixOf]
  · have : x3 = '\n' := by simpa [endsNl] using he
    subst this
    simp [specLit, List.isPrefixOf]
  · have : x4 = '\n' := by simpa [endsNl] using he
    subst this
    simp [specLit, List.isPrefixOf]
  · have h5 : ¬ ',' = x5 := fun e => hcc (by subst e; simp)
    simp [specLit, List.isPrefixOf, h5]

/-- The scan for the line of a name passes over a text without comma that ends
with a line feed. -/
theorem replaceScan_commafree (r c d : Str) (he : endsNl c = true) (hcc : ',' ∉ c) :
    replaceScan (specLit ++ r) [] 0 (c ++ d) = c ++ replaceScan (specLit ++ r) [] 0 d := by
  induction c with
  | nil => rfl
  | cons x c ih =>
    have hp := isPrefixOf_commafree r (x :: c) d (List.cons_ne_nil _ _) he hcc
    rw [List.cons_append] at hp ⊢
    rw [replaceScan_zero, hp, ih (endsNl_tail he) (fun e => hcc (List.mem_cons_of_mem _ e))]
    simp

theorem endsNl_of_append (l a : Str) (h : endsNl (l ++ a) = true) : endsNl a = true := by
  induction l with
  | nil => simpa using h
  | cons y l ih => exact ih (endsNl_tail h)

/-- A one-line text `x` and a text `w` that ends with a line feed: when `x`
followed by `w` is `w` followed by `R`, then `R` is `x`. -/
theorem eq_of_append_comm (body : Str) (hb : '\n' ∉ body) :
    ∀ (k : Nat) (w R : Str), w.length ≤ k → endsNl w = true →
      (body ++ ['\n']) ++ w = w ++ R → R = body ++ ['\n'] := by
  intro k
  induction k with
  | zero =>
    intro w R hk _ h
    have : w = [] := List.length_eq_zero.1 (Nat.le_zero.1 hk)
    subst this
    simpa using h.symm
  | succ k ih =>
    intro w R hk he h
    by_cases hw : w = []
    · subst hw
      simpa using h.symm
    · rcases List.append_eq_append_iff.1 h with ⟨a, h1, h2⟩ | ⟨c, h1, h2⟩
      · have hlen : a.length ≤ k := by
          have := congrArg List.length h1
          simp at this
          omega
        have hea : endsNl a = true := by
          rw [h1] at he
          exact endsNl_of_append _ a he
        exact ih a R hlen hea (h1.symm.trans h2)
      · by_cases hc : c = []
        · subst hc
          rw [h2]
          simpa using h1.symm
        · exfalso
          have hmem : '\n' ∈ w := nl_mem_of_endsNl he hw
          obtain ⟨y, c2, hy⟩ := List.exists_cons_of_ne_nil hc
          obtain ⟨c3, z, hz⟩ : ∃ c3 z, c = c3 ++ [z] := by
            rw [← List.dropLast_append_getLast hc]
            exact ⟨_, _, rfl⟩
          rw [hz, ← List.append_assoc] at h1
          have h3 := List.append_inj_left' h1 rfl
          apply hb
          rw [h3]
          exact List.mem_append_left _ hmem

/-! ## Lemmas on manifests made of whole lines -/

theorem specText_append (ns : List Str) (n : Str) :
    specText (ns ++ [n]) = specText ns ++ specLine n := by
  induction ns with
  | nil => simp [specText]
  | cons m ns ih => simp [specText, ih]

theorem lockText_append (es : List (Str × Str)) (e : Str × Str) :
    lockText (es ++ [e]) = lockText es ++ lockLine e.1 e.2 := by
  induction es with
  | nil => simp [lockText]
  | cons m es ih => simp [lockText, ih]

theorem endsNl_specText (ns : List Str) : endsNl (specText ns) = true := by
  induction ns with
  | nil => rfl
  | cons n ns ih => exact endsNl_append (endsNl_specLine n) ih

theorem endsNl_lockText (es : List (Str × Str)) : endsNl (lockText es) = true := by
  induction es with
  | nil => rfl
  | cons e es ih => exact endsNl_append (endsNl_lockLine e.1 e.2) ih

/-- The submatches of the lines of a list of names are the names. -/
theorem findAllLit_specText (ns : List Str) (h : ∀ n ∈ ns, goodName n) :
    findAllLit specLit 0 (initialCabal ++ specText ns) = ns := by
  rw [findAllLit_append specLit specLit_no_nl initialCabal 0 _ endsNl_initialCabal (Nat.zero_le _)]
  have h0 : findAllLit specLit 0 initialCabal = [] := by decide
  rw [h0, List.nil_append]
  induction ns with
  | nil => rfl
  | cons n ns ih =>
    obtain ⟨h1, h2, _, _⟩ := h n (List.mem_cons_self _ _)
    rw [specText, findAllLit_append specLit specLit_no_nl (specLine n) 0 _ (endsNl_specLine n)
      (Nat.zero_le _), ih (fun m hm => h m (List.mem_cons_of_mem _ hm))]
    unfold specLine
    rw [findAllLit_line specLit n specLit_no_nl h1 h2]
    rfl

theorem head_cases {P : Str} {es : List (Str × Str)}
    (h : (P = initialStack ∧ es = []) ∨ P = initialStack ++ extraDepsLine) :
    endsNl P = true ∧ contains P lockLit = false := by
  rcases h with ⟨rfl, _⟩ | rfl
  · exact ⟨by decide, by decide⟩
  · exact ⟨by decide, by decide⟩

/-- The submatches of the lines of a list of entries are their tokens. -/
theorem findAllLit_lockText (P : Str) (es : List (Str × Str))
    (hP : endsNl P = true ∧ contains P lockLit = false)
    (h : ∀ e ∈ es, '\n' ∉ e.1 ∧ '\n' ∉ e.2) :
    findAllLit lockLit 0 (P ++ lockText es) = es.map (fun e => e.1 ++ '-' :: e.2) := by
  rw [findAllLit_append lockLit lockLit_no_nl P 0 _ hP.1 (Nat.zero_le _),
    findAllLit_of_not_contains lockLit lockLit_no_nl P hP.2, List.nil_append]
  induction es with
  | nil => rfl
  | cons e es ih =>
    obtain ⟨h1, h2⟩ := h e (List.mem_cons_self _ _)
    rw [lockText, findAllLit_append lockLit lockLit_no_nl (lockLine e.1 e.2) 0 _
      (endsNl_lockLine e.1 e.2) (Nat.zero_le _), ih (fun m hm => h m (List.mem_cons_of_mem _ hm)),
      lockLine_eq, findAllLit_line lockLit (e.1 ++ '-' :: e.2) lockLit_no_nl (by simp)
        (by simp [h1, h2])]
    rfl

/-- A value read from a map built by successive assignments was assigned. -/
theorem get_foldl_mem (f : Str → Str × Str) (caps : List Str) :
    ∀ (m : GoMap) (q v : Str),
      GoMap.get (caps.foldl (fun m cap => GoMap.set m (f cap).1 (f cap).2) m) q = some v →
      GoMap.get m q = some v ∨ ∃ cap ∈ caps, f cap = (q, v) := by
  induction caps with
  | nil => intro m q v h; exact Or.inl h
  | cons c caps ih =>
    intro m q v h
    rw [List.foldl_cons] at h
    rcases ih _ q v h with h1 | ⟨cap, hc, e⟩
    · by_cases hq : q = (f c).1
      · subst hq
        rw [get_set_self] at h1
        injection h1 with h1
        exact Or.inr ⟨c, List.mem_cons_self _ _, by rw [← h1]⟩
      · rw [get_set_ne _ _ _ _ hq] at h1
        exact Or.inl h1
    · exact Or.inr ⟨cap, List.mem_cons_of_mem _ hc, e⟩

theorem token_inj {n v m u : Str} (hv : '-' ∉ v) (hu : '-' ∉ u)
    (h : n ++ '-' :: v = m ++ '-' :: u) : n = m ∧ v = u := by
  have h1 := splitEntry_eq n v hv
  rw [h, splitEntry_eq m u hu] at h1
  injection h1 with h2 h3
  exact ⟨h2.symm, h3.symm⟩

/-- The keys of `ListSpecfile` of a project of the shape are its names. -/
theorem mem_keys_listSpec_shape (ns : List Str) (h : ∀ n ∈ ns, goodName n) (k : Str) :
    k ∈ GoMap.keys (listSpec (initialCabal ++ specText ns)) ↔ k ∈ ns := by
  rw [mem_keys_listSpec, findAllLit_specText ns h]

theorem nl_of_entries {ns : List Str} {es : List (Str × Str)}
    (hn : ∀ n ∈ ns, goodName n) (he : ∀ e ∈ es, e.1 ∈ ns ∧ goodVersion e.2) :
    ∀ e ∈ es, '\n' ∉ e.1 ∧ '\n' ∉ e.2 :=
  fun e h => ⟨(hn e.1 (he e h).1).2.1, (he e h).2.1⟩

/-- The keys of `ListLockfile` of a project of the shape are the names of its
entries. -/
theorem mem_keys_listLock_shape (P : Str) (es : List (Str × Str))
    (hP : endsNl P = true ∧ contains P lockLit = false)
    (h : ∀ e ∈ es, '\n' ∉ e.1 ∧ '\n' ∉ e.2) (hh : ∀ e ∈ es, '-' ∉ e.2) (k : Str) :
    k ∈ GoMap.keys (listLock (P ++ lockText es)) ↔ ∃ e ∈ es, e.1 = k := by
  rw [mem_keys_listLock, findAllLit_lockText P es hP h]
  constructor
  · rintro ⟨cap, hcap, e⟩
    obtain ⟨p, hp, rfl⟩ := List.mem_map.1 hcap
    rw [splitEntry_eq p.1 p.2 (hh p hp)] at e
    exact ⟨p, hp, e⟩
  · rintro ⟨p, hp, e⟩
    refine ⟨p.1 ++ '-' :: p.2, List.mem_map.2 ⟨p, hp, rfl⟩, ?_⟩
    rw [splitEntry_eq p.1 p.2 (hh p hp)]
    exact e

/-- A binding of `ListLockfile` of a project of the shape is one of its
entries. -/
theorem get_listLock_shape (P : Str) (es : List (Str × Str))
    (hP : endsNl P = true ∧ contains P lockLit = false)
    (h : ∀ e ∈ es, '\n' ∉ e.1 ∧ '\n' ∉ e.2) (hh : ∀ e ∈ es, '-' ∉ e.2) (q v : Str)
    (hg : GoMap.get (listLock (P ++ lockText es)) q = some v) : (q, v) ∈ es := by
  unfold listLock at hg
  rw [findAllLit_lockText P es hP h] at hg
  rcases get_foldl_mem splitEntry _ [] q v hg with h1 | ⟨cap, hcap, e⟩
  · simp [GoMap.get] at h1
  · obtain ⟨p, hp, rfl⟩ := List.mem_map.1 hcap
    rw [splitEntry_eq p.1 p.2 (hh p hp)] at e
    rw [← e]
    exact hp

/-- In a project of the shape `ListLockfile` maps the name of every entry to
the version of the entry. -/
theorem get_listLock_entry (P : Str) (es : List (Str × Str))
    (hP : endsNl P = true ∧ contains P lockLit = false)
    (h : ∀ e ∈ es, '\n' ∉ e.1 ∧ '\n' ∉ e.2) (hh : ∀ e ∈ es, '-' ∉ e.2)
    (hf : ∀ e1 ∈ es, ∀ e2 ∈ es, e1.1 = e2.1 → e1.2 = e2.2) (e : Str × Str) (he : e ∈ es) :
    GoMap.get (listLock (P ++ lockText es)) e.1 = some e.2 := by
  have hk : e.1 ∈ GoMap.keys (listLock (P ++ lockText es)) :=
    (mem_keys_listLock_shape P es hP h hh e.1).2 ⟨e, he, rfl⟩
  cases hg : GoMap.get (listLock (P ++ lockText es)) e.1 with
  | none => exact absurd hk ((get_eq_none_iff _ _).1 hg)
  | some v =>
    have hm := get_listLock_shape P es hP h hh e.1 v hg
    have := hf (e.1, v) hm e he rfl
    simp only at this
    rw [this]

theorem contains_append_left (c d sub : Str) (h : contains c sub = true) :
    contains (c ++ d) sub = true := by
  induction c with
  | nil =>
    cases sub with
    | nil => cases d <;> simp [contains, List.isPrefixOf]
    | cons x sub => simp [contains] at h
  | cons y c ih =>
    rw [contains_cons, Bool.or_eq_true] at h
    rw [List.cons_append, contains_cons, Bool.or_eq_true]
    rcases h with h | h
    · left
      rw [List.isPrefixOf_iff_prefix] at h ⊢
      exact h.trans (List.prefix_append (y :: c) d)
    · exact Or.inr (ih h)

/-- Taking the line of a name out of the lines of a list of names leaves the
lines of the other names. -/
theorem replaceScan_specText (n : Str) (hn : '\n' ∉ n) (ns : List Str)
    (h : ∀ m ∈ ns, goodName m) :
    replaceScan (specLine n) [] 0 (specText ns) = specText (ns.filter (fun m => !(m == n))) := by
  induction ns with
  | nil => rfl
  | cons m ns ih =>
    have ih2 := ih (fun k hk => h k (List.mem_cons_of_mem _ hk))
    by_cases hm : m = n
    · subst hm
      rw [specText, replaceScan_self _ _ (by simp [specLine]), ih2]
      simp
    · obtain ⟨_, h2, h3, _⟩ := h m (List.mem_cons_self _ _)
      have hc := contains_specLine_ne n m (fun e => hm e.symm) h2 h3
      have hb : (m == n) = false := by simpa using hm
      rw [List.filter_cons, hb]
      simp only [Bool.not_false, if_true, specText]
      rw [← ih2]
      unfold specLine at hc ⊢
      exact replaceScan_append (specLit ++ n) _ _ (nl_not_mem_specBody hn)
        (endsNl_append_nl _) hc

theorem replaceAll_specText (n : Str) (hn : '\n' ∉ n) (ns : List Str)
    (h : ∀ m ∈ ns, goodName m) :
    replaceAll (initialCabal ++ specText ns) (specLine n) []
      = initialCabal ++ specText (ns.filter (fun m => !(m == n))) := by
  rw [replaceAll_eq_scan _ _ (by simp [specLine]), ← replaceScan_specText n hn ns h]
  have hc := contains_initialCabal_specLine n
  unfold specLine at hc ⊢
  exact replaceScan_append (specLit ++ n) initialCabal _ (nl_not_mem_specBody hn)
    endsNl_initialCabal hc

theorem contains_word_hyphen (m rest t : Str) (hm : ' ' ∉ m)
    (h : contains ('-' :: rest) ('-' :: ' ' :: t) = false) :
    contains (m ++ '-' :: rest) ('-' :: ' ' :: t) = false := by
  induction m with
  | nil => exact h
  | cons y m ih =>
    have hm2 : ' ' ∉ m := fun e => hm (List.mem_cons_of_mem _ e)
    rw [List.cons_append, contains_cons, ih hm2]
    cases m with
    | nil => simp [List.isPrefixOf]
    | cons z m =>
      have hz : z ≠ ' ' := fun e => hm (by simp [e])
      have hz2 : ¬ ' ' = z := fun e => hz e.symm
      simp [List.isPrefixOf, hz2]

/-- The line of one entry has no occurrence of the line of another entry. -/
theorem contains_lockLine_ne (n v m u : Str) (hne : (m, u) ≠ (n, v)) (hvh : '-' ∉ v)
    (hm : '\n' ∉ m) (hmb : ' ' ∉ m) (hu : '\n' ∉ u) (huh : '-' ∉ u) :
    contains (lockLine m u) (lockLine n v) = false := by
  have e2 : lockLine n v = '-' :: ' ' :: ((n ++ '-' :: v) ++ ['\n']) := by
    simp [lockLine, lockLit]
  have hx : '-' ∈ ' ' :: ((n ++ '-' :: v) ++ ['\n']) := by simp
  have hu2 : '-' ∉ u ++ ['\n'] := by simp [huh]
  have h3 : contains ('-' :: (u ++ ['\n'])) (lockLine n v) = false := by
    rw [contains_cons, contains_of_not_mem (x := '-') (by simp [lockLine, lockLit]) hu2, e2]
    have hp : (' ' :: ((n ++ '-' :: v) ++ ['\n'])).isPrefixOf (u ++ ['\n']) = false := by
      by_contra hp
      have hp2 : (' ' :: ((n ++ '-' :: v) ++ ['\n'])).isPrefixOf (u ++ ['\n']) = true := by
        simpa using hp
      exact hu2 (mem_of_isPrefixOf hp2 hx)
    simp only [List.isPrefixOf, hp]
    simp
  have h2 : contains (m ++ '-' :: (u ++ ['\n'])) (lockLine n v) = false := by
    rw [e2] at h3 ⊢
    exact contains_word_hyphen m _ _ hmb h3
  have h0 : ((n ++ '-' :: v) ++ ['\n']).isPrefixOf ((m ++ '-' :: u) ++ ['\n']) = false := by
    by_contra h
    have h1 : ((n ++ '-' :: v) ++ ['\n']).isPrefixOf ((m ++ '-' :: u) ++ ['\n']) = true := by
      simpa using h
    have h3 := eq_of_line_isPrefixOf _ _ (by simp [hm, hu]) h1
    obtain ⟨e1, e2⟩ := token_inj hvh huh h3
    exact hne (by rw [e1, e2])
  have e : lockLine m u = '-' :: ' ' :: (m ++ '-' :: (u ++ ['\n'])) := by
    simp [lockLine, lockLit]
  rw [e, contains_cons, contains_cons, h2, e2]
  simp only [List.append_assoc, List.cons_append] at h0
  simp [List.isPrefixOf, h0]

/-- Taking the line of an entry out of the lines of a list of entries leaves
the lines of the other entries. -/
theorem replaceScan_lockText (n v : Str) (hn : '\n' ∉ n) (hv : '\n' ∉ v) (hvh : '-' ∉ v)
    (es : List (Str × Str))
    (h : ∀ e ∈ es, '\n' ∉ e.1 ∧ ' ' ∉ e.1 ∧ goodVersion e.2) :
    replaceScan (lockLine n v) [] 0 (lockText es)
      = lockText (es.filter (fun e => !(e == (n, v)))) := by
  induction es with
  | nil => rfl
  | cons e es ih =>
    have ih2 := ih (fun k hk => h k (List.mem_cons_of_mem _ hk))
    by_cases he : e = (n, v)
    · subst he
      rw [lockText, replaceScan_self _ _ (by simp [lockLine]), ih2]
      simp
    · obtain ⟨h1, h2, h3, h4⟩ := h e (List.mem_cons_self _ _)
      have hc := contains_lockLine_ne n v e.1 e.2 he hvh h1 h2 h3 h4
      have hb : (e == (n, v)) = false := by simpa using he
      rw [List.filter_cons, hb]
      simp only [Bool.not_false, if_true, lockText]
      rw [← ih2]
      rw [lockLine_eq n v] at hc ⊢
      exact replaceScan_append (lockLit ++ (n ++ '-' :: v)) _ _ (by simp [lockLit, hn, hv])
        (endsNl_lockLine e.1 e.2) hc

theorem replaceAll_lockText (P n v : Str) (hP : endsNl P = true ∧ contains P lockLit = false)
    (hn : '\n' ∉ n) (hv : '\n' ∉ v) (hvh : '-' ∉ v) (es : List (Str × Str))
    (h : ∀ e ∈ es, '\n' ∉ e.1 ∧ ' ' ∉ e.1 ∧ goodVersion e.2) :
    replaceAll (P ++ lockText es) (lockLine n v) []
      = P ++ lockText (es.filter (fun e => !(e == (n, v)))) := by
  rw [replaceAll_eq_scan _ _ (by simp [lockLine]), ← replaceScan_lockText n v hn hv hvh es h]
  have hc : contains P (lockLine n v) = false := by
    by_contra hc
    have h1 : contains P (lockLine n v) = true := by simpa using hc
    have h2 : lockLine n v = lockLit ++ (n ++ '-' :: v ++ ['\n']) := by simp [lockLine]
    rw [h2] at h1
    rw [contains_of_contains_append _ _ _ h1] at hP
    cases hP.2
  rw [lockLine_eq n v] at hc ⊢
  exact replaceScan_append (lockLit ++ (n ++ '-' :: v)) P _ (by simp [lockLit, hn, hv]) hP.1 hc

/-! ## Lemmas on contents cut into pieces that end with a line feed -/

theorem unlines_append (a b : List Str) : unlines (a ++ b) = unlines a ++ unlines b := by
  induction a with
  | nil => rfl
  | cons l a ih => simp [unlines, ih]

theorem unlines_singleton (l : Str) : unlines [l] = l ++ ['\n'] := by
  simp [unlines]

/-- The submatches of a content are those of its pieces, in order. -/
theorem findAllLit_unlines (lit : Str) (hlit : '\n' ∉ lit) (ls : List Str) :
    findAllLit lit 0 (unlines ls) = ls.flatMap (fun l => findAllLit lit 0 (l ++ ['\n'])) := by
  induction ls with
  | nil => rfl
  | cons l ls ih =>
    rw [unlines, findAllLit_append lit hlit (l ++ ['\n']) 0 _ (endsNl_append_nl l)
      (Nat.zero_le _), ih]
    simp

/-- Taking a one-line text out of a content whose pieces are that text or have
no occurrence of it leaves the other pieces. -/
theorem replaceScan_unlines (body : Str) (hb : '\n' ∉ body) (ls : List Str)
    (h : ∀ l ∈ ls, l ≠ body → contains (l ++ ['\n']) (body ++ ['\n']) = false) :
    replaceScan (body ++ ['\n']) [] 0 (unlines ls)
      = unlines (ls.filter (fun l => !(l == body))) := by
  induction ls with
  | nil => rfl
  | cons l ls ih =>
    have ih2 := ih (fun k hk => h k (List.mem_cons_of_mem _ hk))
    by_cases hl : l = body
    · subst hl
      rw [unlines, replaceScan_self _ _ (by simp), ih2]
      simp
    · have hc := h l (List.mem_cons_self _ _) hl
      have hbq : (l == body) = false := by simpa using hl
      rw [List.filter_cons, hbq]
      simp only [Bool.not_false, if_true, unlines]
      rw [← ih2]
      exact replaceScan_append body _ _ hb (endsNl_append_nl l) hc

/-- The spec side of `Remove` after `Add`, for a `project.cabal` cut into
pieces that are the line of the name or have no occurrence of it. -/
theorem spec_pieces_add_remove (fs0 : FS) (cl : List Str) (n v : Str) (info : PkgInfo)
    (hc : fs0.cabal = some (unlines cl)) (hnl : '\n' ∉ n)
    (h : ∀ l ∈ cl, l ≠ specLit ++ n → contains (l ++ ['\n']) (specLine n) = false) :
    n ∉ GoMap.keys (ListSpecfile (Remove (addResolved fs0 n v info) [n])) := by
  unfold ListSpecfile
  rw [remove_single_cabal, addResolved_cabal, hc]
  simp only [appendFile, overwriteFile, readFile, Option.map_some', Option.getD_some]
  have e : unlines cl ++ specLine n = unlines (cl ++ [specLit ++ n]) := by
    rw [unlines_append, unlines_singleton]
    rfl
  have hall : ∀ l ∈ cl ++ [specLit ++ n], l ≠ specLit ++ n →
      contains (l ++ ['\n']) (specLit ++ n ++ ['\n']) = false := by
    intro l hl hne
    rcases List.mem_append.1 hl with hl | hl
    · exact h l hl hne
    · exact absurd (by simpa using hl) hne
  rw [replaceAll_eq_scan _ _ (by simp [specLine]), e]
  unfold specLine
  rw [replaceScan_unlines (specLit ++ n) (nl_not_mem_specBody hnl) _ hall]
  intro hk
  rw [mem_keys_listSpec, findAllLit_unlines specLit specLit_no_nl] at hk
  obtain ⟨l, hl, hcap⟩ := List.mem_flatMap.1 hk
  obtain ⟨hl1, hl2⟩ := List.mem_filter.1 hl
  have hne : l ≠ specLit ++ n := by simpa using hl2
  have h1 := contains_of_mem_findAllLit specLit specLit_no_nl (l ++ ['\n']) 0 n
    (endsNl_append_nl l) hcap
  have h2 : contains (l ++ ['\n']) (specLit ++ n ++ ['\n']) = true := by
    simpa using h1
  rw [hall l hl1 hne] at h2
  cases h2

/-- `Remove` of a name from a `stack.yaml` cut into pieces: when the line of
the entry at version `ver` is a piece or does not occur in a piece, and every
entry read from a piece under the name has the version `ver`, the name is no
key afterwards. -/
theorem lock_pieces_remove (ls : List Str) (n ver : Str) (hn : '\n' ∉ n) (hv : '\n' ∉ ver)
    (h2 : ∀ l ∈ ls, l ≠ lockLit ++ (n ++ '-' :: ver) →
      contains (l ++ ['\n']) (lockLine n ver) = false)
    (h3 : ∀ l ∈ ls, ∀ cap ∈ findAllLit lockLit 0 (l ++ ['\n']),
      (splitEntry cap).1 = n → cap = n ++ '-' :: ver) :
    n ∉ GoMap.keys (listLock
      (match GoMap.get (listLock (unlines ls)) n with
       | some val => replaceAll (unlines ls) (lockLine n val) []
       | none => unlines ls)) := by
  cases hg : GoMap.get (listLock (unlines ls)) n with
  | none =>
    simp only []
    exact (get_eq_none_iff _ _).1 hg
  | some val =>
    simp only []
    have hval : val = ver := by
      unfold listLock at hg
      rcases get_foldl_mem splitEntry _ [] n val hg with h0 | ⟨cap, hcap, e⟩
      · simp [GoMap.get] at h0
      · rw [findAllLit_unlines lockLit lockLit_no_nl] at hcap
        obtain ⟨l, hl, hcl⟩ := List.mem_flatMap.1 hcap
        have e1 : (splitEntry cap).1 = n := by rw [e]
        have hc := h3 l hl cap hcl e1
        obtain ⟨a1, _⟩ := splitEntry_spec (t := cap) (by rw [hc]; simp)
        rw [e, hc] at a1
        have := List.append_cancel_left a1
        simpa using this
    subst hval
    rw [replaceAll_eq_scan _ _ (by simp [lockLine]), lockLine_eq,
      replaceScan_unlines (lockLit ++ (n ++ '-' :: val)) (by simp [lockLit, hn, hv]) ls
        (by
          intro l hl hne
          rw [← lockLine_eq]
          exact h2 l hl hne)]
    intro hk
    rw [mem_keys_listLock, findAllLit_unlines lockLit lockLit_no_nl] at hk
    obtain ⟨cap, hcap, e⟩ := hk
    obtain ⟨l, hl, hcl⟩ := List.mem_flatMap.1 hcap
    obtain ⟨hl1, hl2⟩ := List.mem_filter.1 hl
    have hne : l ≠ lockLit ++ (n ++ '-' :: val) := by simpa using hl2
    have hc := h3 l hl1 cap hcl e
    have h1 := contains_of_mem_findAllLit lockLit lockLit_no_nl (l ++ ['\n']) 0 cap
      (endsNl_append_nl l) hcl
    rw [hc, ← lockLine_eq, h2 l hl1 hne] at h1
    cases h1

/-- A piece without a hyphen followed by a blank has no occurrence of the line
of an entry and yields no entry. -/
theorem piece_without_lit (l n ver : Str) (h : contains (l ++ ['\n']) lockLit = false) :
    contains (l ++ ['\n']) (lockLine n ver) = false ∧
      ∀ cap ∈ findAllLit lockLit 0 (l ++ ['\n']), (splitEntry cap).1 = n →
        cap = n ++ '-' :: ver := by
  constructor
  · by_contra hc
    have h1 : contains (l ++ ['\n']) (lockLine n ver) = true := by simpa using hc
    have h2 : lockLine n ver = lockLit ++ (n ++ '-' :: ver ++ ['\n']) := by simp [lockLine]
    rw [h2] at h1
    rw [contains_of_contains_append _ _ _ h1] at h
    cases h
  · intro cap hcap
    rw [findAllLit_of_not_contains lockLit lockLit_no_nl _ h] at hcap
    simp at hcap

/-- The lock side of `Remove` after `Add` of a package outside the curated
set, for a `stack.yaml` cut into pieces. -/
theorem lock_pieces_add_remove (fs0 : FS) (sl : List Str) (n : Str) (info : PkgInfo)
    (hs : fs0.stack = some (unlines sl)) (hex : onStackage info = false)
    (hn : '\n' ∉ n) (hv : '\n' ∉ info.Version)
    (h2 : ∀ l ∈ sl, l ≠ lockLit ++ (n ++ '-' :: info.Version) →
      contains (l ++ ['\n']) (lockLine n info.Version) = false)
    (h3 : ∀ l ∈ sl, ∀ cap ∈ findAllLit lockLit 0 (l ++ ['\n']),
      (splitEntry cap).1 = n → cap = n ++ '-' :: info.Version) :
    n ∉ GoMap.keys (ListLockfile (Remove (addResolved fs0 n [] info) [n])) := by
  have hp : pinnedVersion [] info = info.Version := by simp [pinnedVersion]
  have hm : contains ("extra-deps:".toList ++ ['\n']) lockLit = false := by decide
  have h1 := addResolved_stack_extra fs0 n [] info hex
  rw [hs, hp] at h1
  simp only [appendFile, readFile, Option.map_some', Option.getD_some] at h1
  have e : (unlines sl ++ if contains (unlines sl) extraDepsKey = true then []
        else extraDepsLine) ++ lockLine n info.Version
      = unlines (sl ++ (if contains (unlines sl) extraDepsKey = true then []
          else ["extra-deps:".toList]) ++ [lockLit ++ (n ++ '-' :: info.Version)]) := by
    rw [unlines_append, unlines_append, unlines_singleton, ← lockLine_eq]
    cases contains (unlines sl) extraDepsKey
    · rfl
    · rfl
  rw [e] at h1
  have hall2 : ∀ l ∈ sl ++ (if contains (unlines sl) extraDepsKey = true then []
        else ["extra-deps:".toList]) ++ [lockLit ++ (n ++ '-' :: info.Version)],
      l ≠ lockLit ++ (n ++ '-' :: info.Version) →
        contains (l ++ ['\n']) (lockLine n info.Version) = false := by
    intro l hl hne
    rcases List.mem_append.1 hl with hl | hl
    · rcases List.mem_append.1 hl with hl | hl
      · exact h2 l hl hne
      · cases hb : contains (unlines sl) extraDepsKey
        · rw [hb] at hl
          have : l = "extra-deps:".toList := by simpa using hl
          rw [this]
          exact (piece_without_lit _ n info.Version hm).1
        · rw [hb] at hl
          simp at hl
    · exact absurd (by simpa using hl) hne
  have hall3 : ∀ l ∈ sl ++ (if contains (unlines sl) extraDepsKey = true then []
        else ["extra-deps:".toList]) ++ [lockLit ++ (n ++ '-' :: info.Version)],
      ∀ cap ∈ findAllLit lockLit 0 (l ++ ['\n']),
        (splitEntry cap).1 = n → cap = n ++ '-' :: info.Version := by
    intro l hl cap hcap e1
    rcases List.mem_append.1 hl with hl | hl
    · rcases List.mem_append.1 hl with hl | hl
      · exact h3 l hl cap hcap e1
      · cases hb : contains (unlines sl) extraDepsKey
        · rw [hb] at hl
          have : l = "extra-deps:".toList := by simpa using hl
          rw [this] at hcap
          exact (piece_without_lit _ n info.Version hm).2 cap hcap e1
        · rw [hb] at hl
          simp at hl
    · have : l = lockLit ++ (n ++ '-' :: info.Version) := by simpa using hl
      rw [this, findAllLit_line lockLit _ lockLit_no_nl (by simp) (by simp [hn, hv])] at hcap
      simpa using hcap
  unfold ListLockfile
  rw [remove_single_stack]
  unfold ListLockfile
  rw [h1]
  simp only [overwriteFile, readFile, Option.map_some', Option.getD_some]
  exact lock_pieces_remove _ n info.Version hn hv hall2 hall3

/-! ## Lemmas on where the entries of `ListLockfile` come from -/

theorem dropWhile_isDot_head (s : Str) :
    s.dropWhile isDot = [] ∨ (s.dropWhile isDot).head? = some '\n' := by
  induction s with
  | nil => exact Or.inl rfl
  | cons x s ih =>
    by_cases hx : x = '\n'
    · subst hx
      right
      rfl
    · have hd : isDot x = true := by simpa [isDot] using hx
      rw [List.dropWhile_cons, hd]
      exact ih

/-- Every submatch stands in the text right after the literal and runs to the
end of its line or of the text. -/
theorem occurrence_of_mem_findAllLit (lit : Str) (hlit : '\n' ∉ lit) (c : Str) :
    ∀ (k : Nat) (t : Str), t ∈ findAllLit lit k c →
      t ≠ [] ∧ ∃ p s, c = p ++ (lit ++ t) ++ s ∧ (s = [] ∨ s.head? = some '\n') := by
  induction c with
  | nil => intro k t h; simp [findAllLit] at h
  | cons x c ih =>
    intro k t h
    have step : ∀ k2, t ∈ findAllLit lit k2 c →
        t ≠ [] ∧ ∃ p s, x :: c = p ++ (lit ++ t) ++ s ∧ (s = [] ∨ s.head? = some '\n') := by
      intro k2 h2
      obtain ⟨h3, p, s, e, hs⟩ := ih k2 t h2
      exact ⟨h3, x :: p, s, by rw [e]; rfl, hs⟩
    cases k with
    | succ k =>
      rw [findAllLit_succ] at h
      exact step k h
    | zero =>
      rw [findAllLit_zero] at h
      cases hm : matchAt lit (x :: c) with
      | none =>
        rw [hm] at h
        exact step 0 h
      | some cap =>
        rw [hm] at h
        rcases List.mem_cons.1 h with e | e
        · subst e
          obtain ⟨h1, h2⟩ := matchAt_takeWhile lit hlit hm
          refine ⟨h2, [], List.dropWhile isDot (x :: c), ?_, dropWhile_isDot_head _⟩
          rw [List.nil_append, ← h1, List.takeWhile_append_dropWhile]
        · exact step _ e

theorem contains_concat_false (l lit : Str) (x : Char) (hx : x ∉ lit) (hl : lit ≠ [])
    (h : contains l lit = false) : contains (l ++ [x]) lit = false := by
  induction l with
  | nil =>
    cases lit with
    | nil => exact absurd rfl hl
    | cons a r =>
      have ha : a ≠ x := fun e => hx (by rw [e]; exact List.mem_cons_self _ _)
      simp [contains, List.isPrefixOf, ha]
  | cons y l ih =>
    rw [contains_cons, Bool.or_eq_false_iff] at h
    rw [List.cons_append, contains_cons, Bool.or_eq_false_iff]
    refine ⟨?_, ih h.2⟩
    apply Bool.eq_false_iff.2
    intro hp
    have hp2 : lit <+: (y :: l) ++ [x] := List.isPrefixOf_iff_prefix.1 hp
    rcases List.prefix_concat_iff.1 hp2 with e | e
    · exact hx (by rw [e]; simp)
    · have := List.isPrefixOf_iff_prefix.2 e
      rw [h.1] at this
      cases this

/-- The pieces without the literal yield no submatch. -/
theorem flatMap_findAllLit_filter (lit : Str) (hlit : '\n' ∉ lit) (hl : lit ≠ [])
    (ls : List Str) :
    ls.flatMap (fun l => findAllLit lit 0 (l ++ ['\n']))
      = (ls.filter (fun l => contains l lit)).flatMap
          (fun l => findAllLit lit 0 (l ++ ['\n'])) := by
  induction ls with
  | nil => rfl
  | cons l ls ih =>
    cases hc : contains l lit with
    | true =>
      rw [List.filter_cons, hc]
      simp only [if_true, List.flatMap_cons, ih]
    | false =>
      rw [List.filter_cons, hc]
      simp only [Bool.false_eq_true, if_false, List.flatMap_cons, ih]
      rw [findAllLit_of_not_contains lit hlit _ (contains_concat_false l lit '\n' hlit hl hc)]
      rfl

theorem endsNl_unlines (ls : List Str) : endsNl (unlines ls) = true := by
  induction ls with
  | nil => rfl
  | cons l ls ih => exact endsNl_append (endsNl_append_nl l) ih

/-- The submatches of a content are those of its pieces without the pieces
that have no occurrence of the literal. -/
theorem findAllLit_filter_pieces (lit : Str) (hlit : '\n' ∉ lit) (hl : lit ≠ [])
    (ls : List Str) (d : Str) :
    findAllLit lit 0 (unlines ls ++ d)
      = findAllLit lit 0 (unlines (ls.filter (fun l => contains l lit)) ++ d) := by
  rw [findAllLit_append lit hlit _ 0 d (endsNl_unlines _) (Nat.zero_le _),
    findAllLit_append lit hlit _ 0 d (endsNl_unlines _) (Nat.zero_le _),
    findAllLit_unlines lit hlit, findAllLit_unlines lit hlit,
    ← flatMap_findAllLit_filter lit hlit hl]

/-! ## The shape of the manifests is kept by `Add` and `Remove` -/

theorem shape_listLock {fs : FS} {ns : List Str} {es : List (Str × Str)} {P : Str}
    (h : Shape fs ns es P) : ListLockfile fs = listLock (P ++ lockText es) := by
  unfold ListLockfile
  rw [h.stack]
  rfl

theorem shape_hyphen {fs : FS} {ns : List Str} {es : List (Str × Str)} {P : Str}
    (h : Shape fs ns es P) : ∀ e ∈ es, '-' ∉ e.2 :=
  fun e he => (h.entries e he).2.2

/-- One round of `Add` keeps the shape. -/
theorem shape_addResolved (fs : FS) (ns : List Str) (es : List (Str × Str)) (P n v : Str)
    (info : PkgInfo) (h : Shape fs ns es P) (hn : goodName n)
    (hx : onStackage info = false →
      goodVersion (pinnedVersion v info) ∧
      ∀ val, GoMap.get (ListLockfile fs) n = some val → val = pinnedVersion v info) :
    ∃ ns1 es1 P1, Shape (addResolved fs n v info) ns1 es1 P1 := by
  have hcab : (addResolved fs n v info).cabal = some (initialCabal ++ specText (ns ++ [n])) := by
    rw [addResolved_cabal, h.cabal, specText_append]
    simp [appendFile]
  have hnames : ∀ m ∈ ns ++ [n], goodName m := by
    intro m hm
    rcases List.mem_append.1 hm with hm | hm
    · exact h.names m hm
    · have : m = n := by simpa using hm
      rw [this]
      exact hn
  cases hex : onStackage info
  · obtain ⟨hgv, hcons⟩ := hx hex
    refine ⟨ns ++ [n], es ++ [(n, pinnedVersion v info)], initialStack ++ extraDepsLine, ?_⟩
    have hval : ∀ e ∈ es, e.1 = n → e.2 = pinnedVersion v info := by
      intro e he hen
      have hg := get_listLock_entry P es (head_cases h.head) (nl_of_entries h.names h.entries)
        (shape_hyphen h) h.functional e he
      rw [← shape_listLock h, hen] at hg
      exact hcons _ hg
    refine ⟨hcab, ?_, Or.inr rfl, hnames, ?_, ?_⟩
    · rw [addResolved_stack_extra _ _ _ _ hex, h.stack, lockText_append]
      simp only [readFile, Option.getD_some, appendFile, Option.map_some']
      rcases h.head with ⟨rfl, rfl⟩ | rfl
      · have hc : contains (initialStack ++ lockText []) extraDepsKey = false := by decide
        simp only [hc, Bool.false_eq_true, if_false]
        simp [lockText]
      · have hc : contains (initialStack ++ extraDepsLine ++ lockText es) extraDepsKey = true :=
          contains_append_left _ _ _ (by decide)
        simp only [hc, if_true]
        simp
    · intro e he
      rcases List.mem_append.1 he with he | he
      · exact ⟨List.mem_append_left _ (h.entries e he).1, (h.entries e he).2⟩
      · have : e = (n, pinnedVersion v info) := by simpa using he
        rw [this]
        exact ⟨List.mem_append_right _ (List.mem_singleton_self _), hgv⟩
    · intro e1 h1 e2 h2 e12
      rcases List.mem_append.1 h1 with h1 | h1 <;> rcases List.mem_append.1 h2 with h2 | h2
      · exact h.functional e1 h1 e2 h2 e12
      · have : e2 = (n, pinnedVersion v info) := by simpa using h2
        subst this
        exact hval e1 h1 e12
      · have : e1 = (n, pinnedVersion v info) := by simpa using h1
        subst this
        exact (hval e2 h2 e12.symm).symm
      · have a1 : e1 = (n, pinnedVersion v info) := by simpa using h1
        have a2 : e2 = (n, pinnedVersion v info) := by simpa using h2
        rw [a1, a2]
  · refine ⟨ns ++ [n], es, P, hcab, ?_, h.head, hnames, ?_, h.functional⟩
    · rw [addResolved_stack_curated _ _ _ _ hex, h.stack]
    · intro e he
      exact ⟨List.mem_append_left _ (h.entries e he).1, (h.entries e he).2⟩

/-- The loop of `Add` keeps the shape. -/
theorem shape_addLoop (w : World) (reqs : List (Str × Str)) :
    ∀ (fs fs1 : FS), (∃ ns es P, Shape fs ns es P) → admissibleAdd w fs reqs →
      addLoop w fs reqs = .ok fs1 → ∃ ns es P, Shape fs1 ns es P := by
  induction reqs with
  | nil =>
    intro fs fs1 hs _ hrun
    simp only [addLoop] at hrun
    injection hrun with hrun
    rw [← hrun]
    exact hs
  | cons r reqs ih =>
    intro fs fs1 hs hadm hrun
    obtain ⟨n, v⟩ := r
    obtain ⟨ns, es, P, hsh⟩ := hs
    simp only [addLoop] at hrun
    cases hI : Info w n with
    | ok info =>
      rw [hI] at hrun
      simp only [] at hrun
      obtain ⟨hgn, hrest⟩ := hadm
      obtain ⟨hx, hnext⟩ := hrest info hI
      exact ih _ fs1 (shape_addResolved fs ns es P n v info hsh hgn hx) hnext hrun
    | die m =>
      rw [hI] at hrun
      cases hrun
    | crash =>
      rw [hI] at hrun
      cases hrun

/-- The loop of `Remove` takes whole lines out. -/
theorem removeLoop_shape (nonStackage : GoMap) (P : Str)
    (hP : endsNl P = true ∧ contains P lockLit = false)
    (hgood : ∀ q val, GoMap.get nonStackage q = some val → goodVersion val) (pkgs : List Str) :
    ∀ (ns : List Str) (es : List (Str × Str)),
      (∀ n ∈ pkgs, '\n' ∉ n) → (∀ m ∈ ns, goodName m) →
      (∀ e ∈ es, e.1 ∈ ns ∧ goodVersion e.2) →
      (∀ e ∈ es, GoMap.get nonStackage e.1 = some e.2) →
      ∃ ns1 es1,
        pkgs.foldl (removeStep nonStackage) (initialCabal ++ specText ns, P ++ lockText es)
          = (initialCabal ++ specText ns1, P ++ lockText es1) ∧
        (∀ m ∈ ns1, m ∈ ns) ∧ (∀ e ∈ es1, e ∈ es ∧ e.1 ∈ ns1) := by
  induction pkgs with
  | nil =>
    intro ns es _ _ he _
    exact ⟨ns, es, rfl, fun m hm => hm, fun e h => ⟨h, (he e h).1⟩⟩
  | cons n pkgs ih =>
    intro ns es hp hns hes hcon
    have hn : '\n' ∉ n := hp n (List.mem_cons_self _ _)
    have hp2 : ∀ k ∈ pkgs, '\n' ∉ k := fun k hk => hp k (List.mem_cons_of_mem _ hk)
    have hns2 : ∀ m ∈ ns.filter (fun m => !(m == n)), goodName m :=
      fun m hm => hns m (List.mem_filter.1 hm).1
    rw [List.foldl_cons]
    cases hg : GoMap.get nonStackage n with
    | none =>
      have hstep : removeStep nonStackage (initialCabal ++ specText ns, P ++ lockText es) n
          = (initialCabal ++ specText (ns.filter (fun m => !(m == n))), P ++ lockText es) := by
        simp only [removeStep, hg, replaceAll_specText n hn ns hns]
      rw [hstep]
      have hes2 : ∀ e ∈ es, e.1 ∈ ns.filter (fun m => !(m == n)) ∧ goodVersion e.2 := by
        intro e he
        refine ⟨List.mem_filter.2 ⟨(hes e he).1, ?_⟩, (hes e he).2⟩
        have : e.1 ≠ n := by
          intro e1
          have := hcon e he
          rw [e1, hg] at this
          cases this
        simpa using this
      obtain ⟨ns1, es1, h1, h2, h3⟩ := ih _ es hp2 hns2 hes2 hcon
      exact ⟨ns1, es1, h1, fun m hm => (List.mem_filter.1 (h2 m hm)).1, h3⟩
    | some val =>
      obtain ⟨hv1, hv2⟩ := hgood n val hg
      have hlines : ∀ e ∈ es, '\n' ∉ e.1 ∧ ' ' ∉ e.1 ∧ goodVersion e.2 := by
        intro e he
        obtain ⟨_, a, _, b⟩ := hns e.1 (hes e he).1
        exact ⟨a, b, (hes e he).2⟩
      have hstep : removeStep nonStackage (initialCabal ++ specText ns, P ++ lockText es) n
          = (initialCabal ++ specText (ns.filter (fun m => !(m == n))),
             P ++ lockText (es.filter (fun e => !(e == (n, val))))) := by
        simp only [removeStep, hg, replaceAll_specText n hn ns hns,
          replaceAll_lockText P n val hP hn hv1 hv2 es hlines]
      rw [hstep]
      have hes2 : ∀ e ∈ es.filter (fun e => !(e == (n, val))),
          e.1 ∈ ns.filter (fun m => !(m == n)) ∧ goodVersion e.2 := by
        intro e he
        obtain ⟨he1, he2⟩ := List.mem_filter.1 he
        refine ⟨List.mem_filter.2 ⟨(hes e he1).1, ?_⟩, (hes e he1).2⟩
        have : e.1 ≠ n := by
          intro e1
          have h5 := hcon e he1
          rw [e1, hg] at h5
          injection h5 with h5
          have : e = (n, val) := by
            rw [← e1, h5]
          simp [this] at he2
        simpa using this
      have hcon2 : ∀ e ∈ es.filter (fun e => !(e == (n, val))),
          GoMap.get nonStackage e.1 = some e.2 :=
        fun e he => hcon e (List.mem_filter.1 he).1
      obtain ⟨ns1, es1, h1, h2, h3⟩ := ih _ _ hp2 hns2 hes2 hcon2
      exact ⟨ns1, es1, h1, fun m hm => (List.mem_filter.1 (h2 m hm)).1,
        fun e he => ⟨(List.mem_filter.1 (h3 e he).1).1, (h3 e he).2⟩⟩

/-- `Remove` keeps the shape. -/
theorem shape_remove (fs : FS) (ns : List Str) (es : List (Str × Str)) (P : Str)
    (pkgs : List Str) (h : Shape fs ns es P) (hp : ∀ n ∈ pkgs, '\n' ∉ n) :
    ∃ ns1 es1 P1, Shape (Remove fs pkgs) ns1 es1 P1 := by
  have hP := head_cases h.head
  have hnl := nl_of_entries h.names h.entries
  have hgood : ∀ q val, GoMap.get (ListLockfile fs) q = some val → goodVersion val := by
    intro q val hg
    rw [shape_listLock h] at hg
    exact (h.entries _ (get_listLock_shape P es hP hnl (shape_hyphen h) q val hg)).2
  have hcon : ∀ e ∈ es, GoMap.get (ListLockfile fs) e.1 = some e.2 := by
    intro e he
    rw [shape_listLock h]
    exact get_listLock_entry P es hP hnl (shape_hyphen h) h.functional e he
  obtain ⟨ns1, es1, h1, h2, h3⟩ :=
    removeLoop_shape (ListLockfile fs) P hP hgood pkgs ns es hp h.names h.entries hcon
  refine ⟨ns1, es1, P, ?_, ?_, ?_, ?_, ?_, ?_⟩
  · simp only [Remove, h.cabal, h.stack, readFile, Option.getD_some, overwriteFile,
      Option.map_some', h1]
  · simp only [Remove, h.cabal, h.stack, readFile, Option.getD_some, overwriteFile,
      Option.map_some', h1]
  · rcases h.head with ⟨a, b⟩ | a
    · left
      refine ⟨a, ?_⟩
      cases es1 with
      | nil => rfl
      | cons e es1 =>
        have := (h3 e (List.mem_cons_self _ _)).1
        rw [b] at this
        simp at this
    · exact Or.inr a
  · exact fun m hm => h.names m (h2 m hm)
  · exact fun e he => ⟨(h3 e he).2, (h.entries e (h3 e he).1).2⟩
  · exact fun e1 a1 e2 a2 e12 => h.functional e1 (h3 e1 a1).1 e2 (h3 e2 a2).1 e12

/-- Every state a sequence of admissible calls reaches from the empty project
directory is the empty project directory or has the shape. -/
theorem run_shape (calls : List Call) :
    ∀ (fs fs1 : FS), (fs = emptyDir ∨ ∃ ns es P, Shape fs ns es P) → admissible fs calls →
      run fs calls = .ok fs1 → (fs1 = emptyDir ∨ ∃ ns es P, Shape fs1 ns es P) := by
  induction calls with
  | nil =>
    intro fs fs1 hs _ hrun
    simp only [run] at hrun
    injection hrun with hrun
    rw [← hrun]
    exact hs
  | cons c calls ih =>
    intro fs fs1 hs hadm hrun
    cases c with
    | add w packages =>
      obtain ⟨ha, hnext⟩ := hadm
      simp only [run] at hrun
      cases hA : Add w fs packages with
      | ok fs2 =>
        rw [hA] at hrun
        simp only [] at hrun
        have hinit : ∃ ns es P, Shape (ensureInit fs) ns es P := by
          rcases hs with rfl | ⟨ns, es, P, hsh⟩
          · exact ⟨[], [], initialStack, by simp [ensureInit, emptyDir, specText],
              by simp [ensureInit, emptyDir, lockText], Or.inl ⟨rfl, rfl⟩, by simp, by simp,
              by simp⟩
          · have : ensureInit fs = fs := by simp [ensureInit, hsh.cabal]
            rw [this]
            exact ⟨ns, es, P, hsh⟩
        have h2 := shape_addLoop w packages (ensureInit fs) fs2 hinit ha hA
        exact ih fs2 fs1 (Or.inr h2) (hnext fs2 hA) hrun
      | die m =>
        rw [hA] at hrun
        cases hrun
      | crash =>
        rw [hA] at hrun
        cases hrun
    | remove pkgs =>
      obtain ⟨hp, hnext⟩ := hadm
      simp only [run] at hrun
      rcases hs with rfl | ⟨ns, es, P, hsh⟩
      · have : Remove emptyDir pkgs = emptyDir := rfl
        rw [this] at hrun hnext
        exact ih emptyDir fs1 (Or.inl rfl) hnext hrun
      · exact ih _ fs1 (Or.inr (shape_remove fs ns es P pkgs hsh hp)) hnext hrun

/-- Invariant 1 holds in the empty project directory and in every project of
the shape. -/
theorem lockWithinSpec_of_shape (fs : FS)
    (h : fs = emptyDir ∨ ∃ ns es P, Shape fs ns es P) : lockWithinSpec fs := by
  rcases h with rfl | ⟨ns, es, P, hsh⟩
  · decide
  · intro k hk
    rw [shape_listLock hsh, mem_keys_listLock_shape P es (head_cases hsh.head)
      (nl_of_entries hsh.names hsh.entries) (shape_hyphen hsh)] at hk
    obtain ⟨e, he, rfl⟩ := hk
    unfold ListSpecfile
    rw [hsh.cabal]
    exact (mem_keys_listSpec_shape ns hsh.names e.1).2 (hsh.entries e he).1

/-! ## The claims -/

/-- C1, as amended. For every non-empty package name `n` without a line feed
that the resolver resolves, and every prior state in which `project.cabal` is
absent, empty, or ends with a line feed: `Add({n: ""})` completes and
afterwards `ListSpecfile()` maps `n` to the empty spec. -/
theorem C1_add_then_listed (w : World) (fs : FS) (n : Str) (info : PkgInfo)
    (hinfo : Info w n = .ok info) (hn : n ≠ []) (hnl : '\n' ∉ n)
    (hfs : ∀ c, fs.cabal = some c → endsNl c = true) :
    ∃ fs1, Add w fs [(n, [])] = .ok fs1 ∧ GoMap.get (ListSpecfile fs1) n = some [] := by
  refine ⟨_, add_single w fs n [] info hinfo, ?_⟩
  obtain ⟨c, hc, hend⟩ := ensureInit_cabal fs hfs
  unfold ListSpecfile
  rw [addResolved_cabal, hc]
  exact listSpec_append_specLine c n hend hn hnl

/-- C1, witness: `aeson` added to a project that lists `foo` already. -/
theorem C1_add_then_listed_witness :
    ∃ fs1, Add curatedWorld fooAddedDir [("aeson".toList, [])] = .ok fs1 ∧
      GoMap.get (ListSpecfile fs1) "aeson".toList = some [] :=
  C1_add_then_listed curatedWorld fooAddedDir "aeson".toList aesonInfo
    (by rfl) (by decide) (by decide) (by intro c h; cases h; decide)

/-- C1 as stated fails. (1) When `project.cabal` ends with a dependency line
that has no line feed after it, the line `Add` writes for `aeson` is glued to
it and `ListSpecfile()` has the single key `text    , aeson`. (2) The empty
name resolves (the item is the bare eight-character head), `Add` writes a
line with nothing after the comma and blank, and `ListSpecfile()` is empty. -/
theorem C1_counterexample :
    (Add curatedWorld openEndedDir [("aeson".toList, [])]
        = .ok { cabal := some (initialCabal ++ "    , text    , aeson\n".toList),
                stack := some initialStack } ∧
      ListSpecfile { cabal := some (initialCabal ++ "    , text    , aeson\n".toList),
                     stack := some initialStack } = [("text    , aeson".toList, [])]) ∧
    (Add curatedWorld emptyDir [([], [])]
        = .ok { cabal := some (initialCabal ++ "    , \n".toList), stack := some initialStack } ∧
      ListSpecfile { cabal := some (initialCabal ++ "    , \n".toList),
                     stack := some initialStack } = []) := by
  refine ⟨⟨?_, ?_⟩, ⟨?_, ?_⟩⟩ <;> rfl

/-- C2, as amended. For every non-empty package name `n` without a line feed
whose resolved description carries the marker `Not on Stackage`, every
requested version `v` such that the pinned version (`v` when it is not empty,
the resolved version otherwise) has neither hyphen nor line feed, and every
prior state in which `project.cabal` is absent, or both manifests are present
and each is empty or ends with a line feed: `Add({n: v})` completes and
afterwards `ListLockfile()` maps `n` to the pinned version and
`ListSpecfile()` has the key `n`. -/
theorem C2_extra_dep_pinned (w : World) (fs : FS) (n v : Str) (info : PkgInfo)
    (hinfo : Info w n = .ok info) (hex : onStackage info = false)
    (hn : n ≠ []) (hnl : '\n' ∉ n)
    (hvh : '-' ∉ pinnedVersion v info) (hvn : '\n' ∉ pinnedVersion v info)
    (hfs : fs.cabal = none ∨
      ∃ c L, fs.cabal = some c ∧ fs.stack = some L ∧ endsNl c = true ∧ endsNl L = true) :
    ∃ fs1, Add w fs [(n, v)] = .ok fs1 ∧
      GoMap.get (ListLockfile fs1) n = some (pinnedVersion v info) ∧
      n ∈ GoMap.keys (ListSpecfile fs1) := by
  have h0 : ∃ c L, (ensureInit fs).cabal = some c ∧ (ensureInit fs).stack = some L ∧
      endsNl c = true ∧ endsNl L = true := by
    rcases hfs with h | ⟨c, L, h1, h2, h3, h4⟩
    · exact ⟨initialCabal, initialStack, by simp [ensureInit, h], by simp [ensureInit, h],
        endsNl_initialCabal, endsNl_initialStack⟩
    · exact ⟨c, L, by simp [ensureInit, h1], by simp [ensureInit, h1, h2], h3, h4⟩
  obtain ⟨c, L, hc, hL, hce, hLe⟩ := h0
  refine ⟨_, add_single w fs n v info hinfo, ?_, ?_⟩
  · unfold ListLockfile
    rw [addResolved_stack_extra _ _ _ _ hex, hL]
    exact listLock_added L n _ _ hLe hnl hvn hvh
  · apply mem_keys_of_get
    unfold ListSpecfile
    rw [addResolved_cabal, hc]
    exact listSpec_append_specLine c n hce hn hnl

/-- C2, witness: `foo`, outside the curated set, added at version `1.2.3` to
an empty project directory. -/
theorem C2_extra_dep_pinned_witness :
    ∃ fs1, Add (extraWorld "2.0".toList) emptyDir [("foo".toList, "1.2.3".toList)] = .ok fs1 ∧
      GoMap.get (ListLockfile fs1) "foo".toList = some "1.2.3".toList ∧
      "foo".toList ∈ GoMap.keys (ListSpecfile fs1) :=
  C2_extra_dep_pinned (extraWorld "2.0".toList) emptyDir "foo".toList "1.2.3".toList fooInfo
    (by rfl) (by rfl) (by decide) (by decide) (by decide) (by decide) (Or.inl rfl)

/-- C2 as stated fails; in each case `foo` resolves to a package whose
description carries the marker. (1) When `project.cabal` exists and
`stack.yaml` does not, nothing is written to `stack.yaml` and `ListLockfile()`
is empty. (2) When `stack.yaml` ends with an entry that has no line feed after
it, the new entry is glued to it and `ListLockfile()` has the single key
`bar-0.1- foo`. (3) A version with a hyphen is split at that hyphen: the key is
`foo-1.2.3` and the version `rc1`. (4) For the empty name `ListSpecfile()` is
empty. (5) A requested version with a line feed is cut at the line feed. -/
theorem C2_counterexample :
    (∃ info, Info (extraWorld "2.0".toList) "foo".toList = .ok info ∧ onStackage info = false) ∧
    (Add (extraWorld "2.0".toList) noStackDir [("foo".toList, "1.2.3".toList)]
        = .ok { cabal := some (initialCabal ++ "    , foo\n".toList), stack := none } ∧
      ListLockfile { cabal := some (initialCabal ++ "    , foo\n".toList), stack := none } = []) ∧
    (Add (extraWorld "2.0".toList)
          { cabal := some initialCabal,
            stack := some (initialStack ++ "extra-deps:\n- bar-0.1".toList) }
          [("foo".toList, "1.2.3".toList)]
        = .ok { cabal := some (initialCabal ++ "    , foo\n".toList),
                stack := some (initialStack ++ "extra-deps:\n- bar-0.1- foo-1.2.3\n".toList) } ∧
      ListLockfile { cabal := some (initialCabal ++ "    , foo\n".toList),
                     stack := some (initialStack ++ "extra-deps:\n- bar-0.1- foo-1.2.3\n".toList) }
        = [("bar-0.1- foo".toList, "1.2.3".toList)]) ∧
    (Add (extraWorld "2.0".toList) emptyDir [("foo".toList, "1.2.3-rc1".toList)]
        = .ok { cabal := some (initialCabal ++ "    , foo\n".toList),
                stack := some (initialStack ++ "extra-deps:\n- foo-1.2.3-rc1\n".toList) } ∧
      ListLockfile { cabal := some (initialCabal ++ "    , foo\n".toList),
                     stack := some (initialStack ++ "extra-deps:\n- foo-1.2.3-rc1\n".toList) }
        = [("foo-1.2.3".toList, "rc1".toList)]) ∧
    (∃ info, Info (extraWorld "2.0".toList) [] = .ok info ∧ onStackage info = false) ∧
    (Add (extraWorld "2.0".toList) emptyDir [([], "1.2.3".toList)]
        = .ok { cabal := some (initialCabal ++ "    , \n".toList),
                stack := some (initialStack ++ "extra-deps:\n- -1.2.3\n".toList) } ∧
      ListSpecfile { cabal := some (initialCabal ++ "    , \n".toList),
                     stack := some (initialStack ++ "extra-deps:\n- -1.2.3\n".toList) } = []) ∧
    (∃ fs1, Add (extraWorld "2.0".toList) emptyDir [("foo".toList, "1\n2".toList)] = .ok fs1 ∧
      ListLockfile fs1 = [("foo".toList, "1".toList)]) := by
  refine ⟨⟨_, rfl, rfl⟩, ⟨?_, ?_⟩, ⟨?_, ?_⟩, ⟨?_, ?_⟩, ⟨_, rfl, rfl⟩, ⟨?_, ?_⟩,
    ⟨_, rfl, ?_⟩⟩ <;> rfl

/-- C3, as amended. For every package name `n` that the resolver resolves,
and every prior state in which `project.cabal` is absent, or `project.cabal`
is a run of pieces `cl`, each followed by a line feed (its lines, say), and
every piece is the line of `n` (four blanks, a comma, a blank, `n`) or has,
with its line feed, no occurrence of that line with its line feed:
`Add({n: ""})` completes and after `Remove({n})` the name `n` is no key of
`ListSpecfile()`. When moreover `Add` records `n` as an extra-dependency, and,
in case both files are present, `stack.yaml` is a run of pieces `sl`, each
followed by a line feed, every piece is the line `Add` writes (a hyphen, a
blank, `n`, a hyphen, the resolved version) or has, with its line feed, no
occurrence of that line with its line feed, and every entry of `stack.yaml`
read under the name `n` is `n`, a hyphen and the resolved version: `n` is no
key of `ListLockfile()` either. -/
theorem C3_add_then_remove_unlists (w : World) (fs : FS) (n : Str) (info : PkgInfo)
    (cl sl : List Str) (hinfo : Info w n = .ok info)
    (hcab : ∀ c, fs.cabal = some c →
      c = unlines cl ∧
      ∀ l ∈ cl, l ≠ specLit ++ n → contains (l ++ ['\n']) (specLine n) = false)
    (hstack : ∀ c L, fs.cabal = some c → fs.stack = some L → onStackage info = false →
      L = unlines sl ∧
      (∀ l ∈ sl, l ≠ lockLit ++ (n ++ '-' :: info.Version) →
        contains (l ++ ['\n']) (lockLine n info.Version) = false) ∧
      (∀ t ∈ findAllLit lockLit 0 L, (splitEntry t).1 = n → t = n ++ '-' :: info.Version)) :
    ∃ fs1, Add w fs [(n, [])] = .ok fs1 ∧
      n ∉ GoMap.keys (ListSpecfile (Remove fs1 [n])) ∧
      (onStackage info = false → n ∉ GoMap.keys (ListLockfile (Remove fs1 [n]))) := by
  refine ⟨_, add_single w fs n [] info hinfo, ?_⟩
  by_cases hnl : '\n' ∈ n
  · exact ⟨fun h => nl_not_mem_key_listSpec _ n h hnl,
      fun _ h => nl_not_mem_key_listLock _ n h hnl⟩
  · have hv := info_version_no_nl w n info hinfo
    cases hc : fs.cabal with
    | none =>
      have e : ensureInit fs = { cabal := some initialCabal, stack := some initialStack } := by
        simp [ensureInit, hc]
      rw [e]
      refine ⟨spec_after_add_remove _ initialCabal n [] info rfl endsNl_initialCabal
        (contains_initialCabal_specLine n) hnl, ?_⟩
      intro hex
      have hp : ∀ l ∈ ["resolver: lts-16.10".toList, "system-ghc: true".toList],
          contains (l ++ ['\n']) lockLit = false := by decide
      exact lock_pieces_add_remove _ ["resolver: lts-16.10".toList, "system-ghc: true".toList]
        n info (by rfl) hex hnl hv
        (fun l hl _ => (piece_without_lit l n info.Version (hp l hl)).1)
        (fun l hl => (piece_without_lit l n info.Version (hp l hl)).2)
    | some c =>
      have e : ensureInit fs = fs := by simp [ensureInit, hc]
      rw [e]
      obtain ⟨h1, h2⟩ := hcab c hc
      refine ⟨spec_pieces_add_remove fs cl n [] info (by rw [hc, h1]) hnl h2, ?_⟩
      intro hex
      cases hs : fs.stack with
      | none =>
        have h3 := addResolved_stack_extra fs n [] info hex
        rw [hs] at h3
        unfold ListLockfile
        rw [remove_single_stack, h3]
        simp [appendFile, overwriteFile, readFile, listLock, findAllLit, GoMap.keys]
      | some L =>
        obtain ⟨h3, h4, h5⟩ := hstack c L hc hs hex
        refine lock_pieces_add_remove fs sl n info (by rw [hs, h3]) hex hnl hv h4 ?_
        intro l hl t ht
        apply h5 t
        rw [h3, findAllLit_unlines lockLit lockLit_no_nl]
        exact List.mem_flatMap.2 ⟨l, hl, ht⟩

/-- C3, witness: `foo`, outside the curated set and resolved at version 2.0,
added to a project in which `foo` is already listed and pinned at version 2.0
next to `foo-pretty`, and removed again. -/
theorem C3_add_then_remove_unlists_witness :
    onStackage fooInfo = false ∧
    ∃ fs1, Add (extraWorld "2.0".toList) fooSameDir [("foo".toList, [])] = .ok fs1 ∧
      "foo".toList ∉ GoMap.keys (ListSpecfile (Remove fs1 ["foo".toList])) ∧
      (onStackage fooInfo = false →
        "foo".toList ∉ GoMap.keys (ListLockfile (Remove fs1 ["foo".toList]))) :=
  ⟨by rfl,
   C3_add_then_remove_unlists (extraWorld "2.0".toList) fooSameDir "foo".toList fooInfo
    (linesOf (readFile fooSameDir.cabal)) (linesOf (readFile fooSameDir.stack)) (by rfl)
    (by
      intro c h
      cases h
      exact ⟨by decide, by decide⟩)
    (by
      intro c L h1 h2 _
      cases h1
      cases h2
      exact ⟨by decide, by decide, by decide⟩)⟩

/-- C3 as stated fails. (1) `foo` is already listed and pinned at version 1.0;
`Add` resolves it outside the curated set at version 2.0 and records it, and
`Remove` takes out the line of version 2.0 only: `foo` is still a key of
`ListLockfile()`. (2) `project.cabal` ends with the line of `text` without a
line feed: the line `Add` writes is glued to it, `Remove` takes the written
text out again, and `text` is still a key of `ListSpecfile()`. (3) Taking the
line of `foo` out of the middle of another line leaves a line of `foo`.
(4) The empty name, outside the curated set, added to a project whose
`stack.yaml` has a `packages` block: the line of that block is an entry with
the empty name, and it stays. (5) `stack.yaml` ends with the text `- my`
without a line feed: the section marker `Add` writes for `myextra` is glued to
it and makes an entry with the name `myextra`, which `Remove` leaves.
(6) A line of `stack.yaml` holds the line of `foo` at version 2.0, with its
line feed, in its middle, and `foo` is no key of `ListLockfile()`: `Remove`
takes that text out as well, and what is left of the line is an entry of
`foo`. -/
theorem C3_counterexample :
    (∃ info, Info (extraWorld "2.0".toList) "foo".toList = .ok info ∧ onStackage info = false) ∧
    (∃ fs1, Add (extraWorld "2.0".toList) fooPinnedDir [("foo".toList, [])] = .ok fs1 ∧
      GoMap.get (ListLockfile fs1) "foo".toList = some "2.0".toList ∧
      Remove fs1 ["foo".toList]
        = { cabal := some initialCabal,
            stack := some (initialStack ++ "extra-deps:\n- foo-1.0\n".toList) } ∧
      ListLockfile (Remove fs1 ["foo".toList]) = [("foo".toList, "1.0".toList)]) ∧
    (∃ fs1, Add curatedWorld openEndedDir [("text".toList, [])] = .ok fs1 ∧
      Remove fs1 ["text".toList]
        = { cabal := some (initialCabal ++ "    , text".toList), stack := some initialStack } ∧
      ListSpecfile (Remove fs1 ["text".toList]) = [("text".toList, [])]) ∧
    (∃ fs1, Add curatedWorld nestedDir [("foo".toList, [])] = .ok fs1 ∧
      Remove fs1 ["foo".toList]
        = { cabal := some (initialCabal ++ "    , foo\n".toList), stack := some initialStack } ∧
      ListSpecfile (Remove fs1 ["foo".toList]) = [("foo".toList, [])]) ∧
    (∃ info, Info (extraWorld "2.0".toList) [] = .ok info ∧ onStackage info = false) ∧
    (∃ fs1, Add (extraWorld "2.0".toList) packagesDir [([], [])] = .ok fs1 ∧
      GoMap.get (ListLockfile fs1) [] = some "2.0".toList ∧
      ListLockfile (Remove fs1 [[]]) = [([], ".".toList)]) ∧
    (∃ info, Info (extraWorld "2.0".toList) "myextra".toList = .ok info ∧
      onStackage info = false) ∧
    (∃ fs1, Add (extraWorld "2.0".toList) gluedDir [("myextra".toList, [])] = .ok fs1 ∧
      GoMap.get (ListLockfile fs1) "myextra".toList = some "2.0".toList ∧
      Remove fs1 ["myextra".toList]
        = { cabal := some initialCabal,
            stack := some (initialStack ++ "- myextra-deps:\n".toList) } ∧
      ListLockfile (Remove fs1 ["myextra".toList]) = [("myextra".toList, "deps:".toList)]) ∧
    (GoMap.get (ListLockfile midLineDir) "foo".toList = none ∧
      ∃ fs1, Add (extraWorld "2.0".toList) midLineDir [("foo".toList, [])] = .ok fs1 ∧
        Remove fs1 ["foo".toList]
          = { cabal := some initialCabal,
              stack := some (initialStack ++ "- foo-2.0\nextra-deps:\n".toList) } ∧
        ListLockfile (Remove fs1 ["foo".toList]) = [("foo".toList, "2.0".toList)]) := by
  refine ⟨⟨_, rfl, rfl⟩, ⟨_, rfl, ?_, ?_, ?_⟩, ⟨_, rfl, ?_, ?_⟩, ⟨_, rfl, ?_, ?_⟩, ⟨_, rfl, rfl⟩,
    ⟨_, rfl, ?_, ?_⟩, ⟨_, rfl, rfl⟩, ⟨_, rfl, ?_, ?_, ?_⟩, ⟨?_, _, rfl, ?_, ?_⟩⟩ <;> rfl

/-- C4, as amended. Starting from an empty project directory, for every two
distinct package names `foo` and `bar` that the resolver resolves, `bar`
non-empty and without line feed or comma, and for both orders in which `Add`
can process the two requests: `Add({foo: "", bar: ""})` completes and after
`Remove({foo})` `ListSpecfile()` is exactly the map with the single key `bar`,
mapped to the empty spec. -/
theorem C4_remove_keeps_the_other (w : World) (foo bar : Str) (ifoo ibar : PkgInfo)
    (reqs : List (Str × Str))
    (hfoo : Info w foo = .ok ifoo) (hbar : Info w bar = .ok ibar) (hne : foo ≠ bar)
    (hb : bar ≠ []) (hbn : '\n' ∉ bar) (hbc : ',' ∉ bar)
    (hreqs : reqs = [(foo, []), (bar, [])] ∨ reqs = [(bar, []), (foo, [])]) :
    ∃ fs1, Add w emptyDir reqs = .ok fs1 ∧ ListSpecfile (Remove fs1 [foo]) = [(bar, [])] := by
  have hic : (ensureInit emptyDir).cabal = some initialCabal := rfl
  have hcb := contains_specLine_ne foo bar hne hbn hbc
  have hS : ',' ∉ initialCabal := by decide
  have hold : specLine foo = specLit ++ (foo ++ ['\n']) := by simp [specLine]
  rcases hreqs with rfl | rfl
  · refine ⟨_, add_pair w emptyDir foo [] bar [] ifoo ibar hfoo hbar, ?_⟩
    unfold ListSpecfile
    rw [remove_single_cabal, addResolved_cabal, addResolved_cabal, hic]
    simp only [appendFile, overwriteFile, readFile, Option.map_some', Option.getD_some]
    have h1 : replaceAll (initialCabal ++ specLine foo ++ specLine bar) (specLine foo) []
        = initialCabal ++ specLine bar := by
      rw [replaceAll_eq_scan _ _ (by simp [specLine]), List.append_assoc]
      rw [hold, replaceScan_commafree _ initialCabal _ endsNl_initialCabal hS, ← hold,
        replaceScan_self _ _ (by simp [specLine]), replaceScan_of_not_contains _ _ _ hcb]
    rw [h1]
    exact listSpec_single bar hb hbn
  · refine ⟨_, add_pair w emptyDir bar [] foo [] ibar ifoo hbar hfoo, ?_⟩
    unfold ListSpecfile
    rw [remove_single_cabal, addResolved_cabal, addResolved_cabal, hic]
    simp only [appendFile, overwriteFile, readFile, Option.map_some', Option.getD_some]
    have h2 : replaceScan (specLine foo) [] 0 (specLine bar ++ specLine foo) = specLine bar := by
      by_cases hp : (specLine foo).isPrefixOf (specLine bar ++ specLine foo) = true
      · obtain ⟨R, hR⟩ := List.isPrefixOf_iff_prefix.1 hp
        have hRx : R = specLit ++ bar ++ ['\n'] := by
          apply eq_of_append_comm (specLit ++ bar) (nl_not_mem_specBody hbn) _ (specLine foo) R
            (Nat.le_refl _) (endsNl_specLine foo)
          exact hR.symm
        rw [← hR, replaceScan_self _ _ (by simp [specLine]), hRx]
        exact replaceScan_of_not_contains _ _ _ hcb
      · have hp0 : (specLine foo).isPrefixOf (specLine bar ++ specLine foo) = false :=
          Bool.eq_false_iff.2 hp
        have e : specLine bar ++ specLine foo
            = ' ' :: ' ' :: ' ' :: ' ' :: ',' :: ((' ' :: (bar ++ ['\n'])) ++ specLine foo) := by
          simp [specLine, specLit]
        rw [e] at hp0 ⊢
        have hrest : replaceScan (specLine foo) [] 0 ((' ' :: (bar ++ ['\n'])) ++ specLine foo)
            = ' ' :: (bar ++ ['\n']) := by
          rw [hold, replaceScan_commafree _ (' ' :: (bar ++ ['\n'])) _
            (by simpa [endsNl] using endsNl_append_nl (' ' :: bar)) (by simp [hbc]), ← hold]
          have := replaceScan_self (specLine foo) [] (by simp [specLine])
          rw [List.append_nil] at this
          rw [this]
          simp [replaceScan]
        rw [replaceScan_zero, hp0]
        simp only [Bool.false_eq_true, if_false]
        have q1 : (specLine foo).isPrefixOf
            (' ' :: ' ' :: ' ' :: ',' :: ((' ' :: (bar ++ ['\n'])) ++ specLine foo)) = false := by
          simp [specLine, specLit, List.isPrefixOf]
        have q2 : (specLine foo).isPrefixOf
            (' ' :: ' ' :: ',' :: ((' ' :: (bar ++ ['\n'])) ++ specLine foo)) = false := by
          simp [specLine, specLit, List.isPrefixOf]
        have q3 : (specLine foo).isPrefixOf
            (' ' :: ',' :: ((' ' :: (bar ++ ['\n'])) ++ specLine foo)) = false := by
          simp [specLine, specLit, List.isPrefixOf]
        have q4 : (specLine foo).isPrefixOf
            (',' :: ((' ' :: (bar ++ ['\n'])) ++ specLine foo)) = false := by
          simp [specLine, specLit, List.isPrefixOf]
        rw [replaceScan_zero, q1]
        simp only [Bool.false_eq_true, if_false]
        rw [replaceScan_zero, q2]
        simp only [Bool.false_eq_true, if_false]
        rw [replaceScan_zero, q3]
        simp only [Bool.false_eq_true, if_false]
        rw [replaceScan_zero, q4]
        simp only [Bool.false_eq_true, if_false]
        rw [hrest]
        simp [specLine, specLit]
    have h1 : replaceAll (initialCabal ++ specLine bar ++ specLine foo) (specLine foo) []
        = initialCabal ++ specLine bar := by
      rw [replaceAll_eq_scan _ _ (by simp [specLine]), List.append_assoc]
      rw [hold, replaceScan_commafree _ initialCabal _ endsNl_initialCabal hS, ← hold, h2]
    rw [h1]
    exact listSpec_single bar hb hbn

/-- C4, witness: `foo` and `bar` in the order `bar`, `foo`. -/
theorem C4_remove_keeps_the_other_witness :
    ∃ fs1, Add curatedWorld emptyDir [("bar".toList, []), ("foo".toList, [])] = .ok fs1 ∧
      ListSpecfile (Remove fs1 ["foo".toList]) = [("bar".toList, [])] :=
  C4_remove_keeps_the_other curatedWorld "foo".toList "bar".toList
    (mkInfo { item := "package foo".toList, url := "https://h/foo".toList,
              docs := "A package.\n".toList }
      "name: p\nversion: 1.0.0\nlicense: BSD3\n".toList)
    (mkInfo { item := "package bar".toList, url := "https://h/bar".toList,
              docs := "A package.\n".toList }
      "name: p\nversion: 1.0.0\nlicense: BSD3\n".toList)
    [("bar".toList, []), ("foo".toList, [])]
    (by rfl) (by rfl) (by decide) (by decide) (by decide) (by decide) (Or.inr rfl)

/-- C4 as stated fails. (1) With the empty name for `bar`, `ListSpecfile()` is
empty after `Remove({foo})`. (2) With `x` for `foo` and a name for `bar` that
ends with a comma, a blank and `x`, the tail of the line of `bar` is taken out
as well and the single key is `y`, in both orders. -/
theorem C4_counterexample :
    (∃ fs1, Add curatedWorld emptyDir [("foo".toList, []), ([], [])] = .ok fs1 ∧
      ListSpecfile (Remove fs1 ["foo".toList]) = []) ∧
    (∃ fs1, Add curatedWorld emptyDir [("x".toList, []), ("y    , x".toList, [])] = .ok fs1 ∧
      Remove fs1 ["x".toList]
        = { cabal := some (initialCabal ++ "    , y".toList), stack := some initialStack } ∧
      ListSpecfile (Remove fs1 ["x".toList]) = [("y".toList, [])]) ∧
    (∃ fs1, Add curatedWorld emptyDir [("y    , x".toList, []), ("x".toList, [])] = .ok fs1 ∧
      ListSpecfile (Remove fs1 ["x".toList]) = [("y".toList, [])]) := by
  refine ⟨⟨_, rfl, ?_⟩, ⟨_, rfl, ?_, ?_⟩, ⟨_, rfl, ?_⟩⟩ <;> rfl

/-- C5. For every requested name `n` and every answer of the search service
and of the metadata fetch, a record returned by `Info(n)` has the name `n`;
every other run of `Info(n)` ends the process. -/
theorem C5_info_returns_requested_name (w : World) (n : Str) (r : PkgInfo)
    (h : Info w n = .ok r) : r.Name = n :=
  info_name w n r h

/-- C5, witness: `Info` does return a record for `aeson`. -/
theorem C5_info_returns_requested_name_witness :
    Info curatedWorld "aeson".toList = .ok aesonInfo ∧ aesonInfo.Name = "aeson".toList :=
  ⟨by rfl, C5_info_returns_requested_name curatedWorld "aeson".toList aesonInfo (by rfl)⟩

/-- The exit `cannot find package` is reached when there is a first hit, its
item has eight characters or more, what follows the eighth is not the
requested name, and the metadata fetch answers. -/
theorem info_not_found (w : World) (name : Str) (hit : Hit) (rest : List Hit) (cabal : Str)
    (hs : w.search name = .ok (hit :: rest)) (hlen : 8 ≤ hit.item.length)
    (hne : hit.item.drop 8 ≠ name)
    (hf : w.fetch (cabalURL hit) = .ok cabal) :
    Info w name = .die ("cannot find package ".toList ++ name) := by
  have h1 : hit.item ≠ [] := by
    intro h
    rw [h] at hlen
    simp at hlen
  have h2 : ¬ hit.item.length < 8 := by omega
  have h3 : (mkInfo hit cabal).Name = hit.item.drop 8 := rfl
  simp [Info, searchFunction, hs, collect, h1, h2, hf, h3, hne]

/-- C6, the code at the failing input. When the search service answers with
no hit at all, `Info(name)` does not reach the `cannot find package` exit: the
slice `results[:1]` is out of range and the process ends with a runtime
error, for every name and every behaviour of the metadata fetch. -/
theorem C6_no_hits_runtime_error (fetch : Str → Except Str Str) (name : Str) :
    Info { search := fun _ => .ok [], fetch := fetch } name = Result.crash := by
  simp [Info, searchFunction]

/-- C7. A line of `stack.yaml` made of a hyphen, a blank and a text `t` with
at least one hyphen yields the entry whose version is what follows the last
hyphen of `t` and whose name is what precedes it: name, hyphen and version
make up `t`, the version has no hyphen, the name is a key of `ListLockfile()`,
and `ListLockfile()` maps the name to the version unless a later line gives
the same name again (a later entry overwrites an earlier one). -/
theorem C7_entry_split_at_last_hyphen (cab : Option Str) (pre t post : Str)
    (hpre : endsNl pre = true) (hnl : '\n' ∉ t) (hh : '-' ∈ t) :
    (splitEntry t).1 ++ '-' :: (splitEntry t).2 = t ∧ '-' ∉ (splitEntry t).2 ∧
      (splitEntry t).1 ∈ GoMap.keys
        (ListLockfile { cabal := cab, stack := some (pre ++ (lockLit ++ t ++ ['\n']) ++ post) }) ∧
      ((splitEntry t).1 ∉ GoMap.keys (listLock post) →
        GoMap.get
          (ListLockfile { cabal := cab, stack := some (pre ++ (lockLit ++ t ++ ['\n']) ++ post) })
          (splitEntry t).1 = some (splitEntry t).2) := by
  have ht : t ≠ [] := by
    intro h0
    rw [h0] at hh
    simp at hh
  have hcaps : findAllLit lockLit 0 (pre ++ (lockLit ++ t ++ ['\n']) ++ post)
      = findAllLit lockLit 0 pre ++ [t] ++ findAllLit lockLit 0 post := by
    rw [findAllLit_append lockLit lockLit_no_nl _ 0 post
        (endsNl_append hpre (endsNl_append_nl _)) (Nat.zero_le _),
      findAllLit_append_line lockLit pre t lockLit_no_nl hpre ht hnl]
  refine ⟨(splitEntry_spec hh).1, (splitEntry_spec hh).2, ?_, ?_⟩
  · unfold ListLockfile readFile
    simp only [Option.getD_some]
    rw [mem_keys_listLock, hcaps]
    exact ⟨t, by simp, rfl⟩
  · intro hpost
    unfold ListLockfile listLock readFile
    simp only [Option.getD_some]
    rw [hcaps, List.foldl_append,
      get_foldl_of_ne splitEntry _ _
        (fun cap hc e => hpost ((mem_keys_listLock post _).2 ⟨cap, hc, e⟩))]
    exact get_foldl_concat splitEntry _ t

/-- C7, witness: the line for `text-show-3.9.2`, between the section marker
and the line of another entry, yields the name `text-show` and the version
`3.9.2`. -/
theorem C7_entry_split_at_last_hyphen_witness :
    splitEntry "text-show-3.9.2".toList = ("text-show".toList, "3.9.2".toList) ∧
      GoMap.get (ListLockfile (FS.mk none
          (some ((initialStack ++ extraDepsLine) ++ (lockLit ++ "text-show-3.9.2".toList ++ ['\n'])
            ++ "- acme-missiles-0.3\n".toList))))
        "text-show".toList = some "3.9.2".toList :=
  ⟨by rfl, (C7_entry_split_at_last_hyphen none (initialStack ++ extraDepsLine)
    "text-show-3.9.2".toList "- acme-missiles-0.3\n".toList
    (by decide) (by decide) (by decide)).2.2.2 (by decide)⟩

/-- The calls of `sampleCalls` are admissible. -/
theorem sampleCalls_admissible : admissible emptyDir sampleCalls := by
  have hfoo : Info (extraWorld "1.0".toList) "foo".toList = .ok fooInfoOne := rfl
  have hbar : Info curatedWorld "bar".toList = .ok barInfo := rfl
  have hadd1 : Add (extraWorld "1.0".toList) emptyDir [("foo".toList, [])] = .ok fooAddedDir := rfl
  have hadd2 : Add curatedWorld fooAddedDir [("bar".toList, [])] = .ok fooBarAddedDir := rfl
  have hnone : GoMap.get (ListLockfile (ensureInit emptyDir)) "foo".toList = none := rfl
  refine ⟨⟨by decide, ?_⟩, ?_⟩
  · intro info hinfo
    rw [hfoo] at hinfo
    injection hinfo with hinfo
    subst hinfo
    refine ⟨fun _ => ⟨by decide, ?_⟩, trivial⟩
    intro val hval
    exact absurd (hnone.symm.trans hval) (by simp)
  · intro fs1 h1
    rw [hadd1] at h1
    injection h1 with h1
    subst h1
    refine ⟨⟨by decide, ?_⟩, ?_⟩
    · intro info hinfo
      rw [hbar] at hinfo
      injection hinfo with hinfo
      subst hinfo
      exact ⟨fun h => absurd h (by decide), trivial⟩
    · intro fs2 h2
      rw [hadd2] at h2
      injection h2 with h2
      subst h2
      exact ⟨by decide, trivial⟩

/-- C8, as amended. Starting from an empty project directory, after any
sequence of `Add` and `Remove` calls that run to completion and in which
(a) every name given to `Add` is not empty and has no line feed, comma or
blank, (b) every version `Add` pins for a package outside the curated set (the
version of the request, or the resolved version when the request has none) has
neither line feed nor hyphen, (c) `Add` pins no package that `ListLockfile()`
maps to another version at that moment, and (d) no name given to `Remove` has
a line feed: every key of `ListLockfile()` is a key of `ListSpecfile()`. -/
theorem C8_lock_keys_within_spec_keys (calls : List Call) (fs : FS)
    (hadm : admissible emptyDir calls) (hrun : run emptyDir calls = .ok fs) :
    ∀ k ∈ GoMap.keys (ListLockfile fs), k ∈ GoMap.keys (ListSpecfile fs) :=
  lockWithinSpec_of_shape fs (run_shape calls emptyDir fs (Or.inl rfl) hadm hrun)

/-- C8, witness: `foo` is added from outside the curated set, `bar` from the
curated set, and `bar` is removed; `foo` is the key of both listings. -/
theorem C8_lock_keys_within_spec_keys_witness :
    run emptyDir sampleCalls = .ok fooAddedDir ∧
      ListLockfile fooAddedDir = [("foo".toList, "1.0".toList)] ∧
      ListSpecfile fooAddedDir = [("foo".toList, [])] ∧
      ∀ k ∈ GoMap.keys (ListLockfile fooAddedDir), k ∈ GoMap.keys (ListSpecfile fooAddedDir) :=
  ⟨by rfl, by rfl, by rfl,
    C8_lock_keys_within_spec_keys sampleCalls fooAddedDir sampleCalls_admissible (by rfl)⟩

/-- C8 as stated fails; every sequence starts from the empty project directory
and runs to completion, and in every final state `ListLockfile()` has a key
that `ListSpecfile()` does not have. (1) `foo` is added when it resolves to
version 1.0, added again when it resolves to version 2.0, and removed:
`Remove` takes the entry of version 2.0 out and leaves the one of version
1.0. (2) A resolved version with a hyphen. (3) A name with a comma, and
`Remove` of the name that ends it. (4) `Remove` of a name with a line feed that
spells two lines of `project.cabal`. (5) A name with a blank, and `Remove` of
the name that ends it. (6) The empty name. (7) A requested version with a
line feed. -/
theorem C8_counterexample :
    (∃ info, Info (extraWorld "1.0".toList) "foo".toList = .ok info ∧ onStackage info = false) ∧
    (∃ fs, run emptyDir [.add (extraWorld "1.0".toList) [("foo".toList, [])],
                         .add (extraWorld "2.0".toList) [("foo".toList, [])],
                         .remove ["foo".toList]] = .ok fs ∧
      ListLockfile fs = [("foo".toList, "1.0".toList)] ∧ ListSpecfile fs = [] ∧
      ¬ lockWithinSpec fs) ∧
    (∃ fs, run emptyDir [.add (extraWorld "1.0-rc1".toList) [("foo".toList, [])]] = .ok fs ∧
      ListLockfile fs = [("foo-1.0".toList, "rc1".toList)] ∧
      ListSpecfile fs = [("foo".toList, [])] ∧ ¬ lockWithinSpec fs) ∧
    (∃ fs, run emptyDir [.add (extraWorld "1.0".toList)
                           [("x".toList, []), ("y    , x".toList, [])],
                         .remove ["x".toList]] = .ok fs ∧
      ListLockfile fs = [("y    , x".toList, "1.0".toList)] ∧
      ListSpecfile fs = [("y".toList, [])] ∧ ¬ lockWithinSpec fs) ∧
    (∃ fs, run emptyDir [.add (extraWorld "1.0".toList) [("a".toList, []), ("b".toList, [])],
                         .remove ["a\n    , b".toList]] = .ok fs ∧
      ListLockfile fs = [("b".toList, "1.0".toList), ("a".toList, "1.0".toList)] ∧
      ListSpecfile fs = [] ∧ ¬ lockWithinSpec fs) ∧
    (∃ fs, run emptyDir [.add (extraWorld "1.0".toList) [("a- b".toList, []), ("b".toList, [])],
                         .remove ["b".toList]] = .ok fs ∧
      ListLockfile fs = [([], "a".toList)] ∧
      ListSpecfile fs = [("a- b".toList, [])] ∧ ¬ lockWithinSpec fs) ∧
    (∃ fs, run emptyDir [.add (extraWorld "1.0".toList) [([], [])]] = .ok fs ∧
      ListLockfile fs = [([], "1.0".toList)] ∧ ListSpecfile fs = [] ∧ ¬ lockWithinSpec fs) ∧
    (∃ fs, run emptyDir [.add (extraWorld "1.0".toList) [("foo".toList, "1\n- x-2".toList)]]
        = .ok fs ∧
      ListLockfile fs = [("x".toList, "2".toList), ("foo".toList, "1".toList)] ∧
      ListSpecfile fs = [("foo".toList, [])] ∧ ¬ lockWithinSpec fs) :=
  ⟨⟨_, rfl, rfl⟩, ⟨_, rfl, rfl, rfl, by decide⟩, ⟨_, rfl, rfl, rfl, by decide⟩,
    ⟨_, rfl, rfl, rfl, by decide⟩, ⟨_, rfl, rfl, rfl, by decide⟩, ⟨_, rfl, rfl, rfl, by decide⟩,
    ⟨_, rfl, rfl, rfl, by decide⟩, ⟨_, rfl, rfl, rfl, by decide⟩⟩

/-- C9, as amended. Starting from an empty project directory, for every
package name `n` that the resolver resolves, where for a package outside the
curated set `n` has no line feed and the resolved version has no hyphen:
`Add({n: ""})` completes; afterwards `n` is a key of `ListLockfile()` if and
only if the resolved description of `n` carries the marker `Not on Stackage`;
and for a curated package `stack.yaml` is exactly the scaffold. -/
theorem C9_lock_entry_iff_not_curated (w : World) (n : Str) (info : PkgInfo)
    (hinfo : Info w n = .ok info)
    (hgood : onStackage info = false → '\n' ∉ n ∧ '-' ∉ info.Version) :
    ∃ fs1, Add w emptyDir [(n, [])] = .ok fs1 ∧
      (n ∈ GoMap.keys (ListLockfile fs1) ↔ onStackage info = false) ∧
      (onStackage info = true → fs1.stack = some initialStack) := by
  refine ⟨_, add_single w emptyDir n [] info hinfo, ?_, ?_⟩
  · cases hex : onStackage info
    · obtain ⟨hnl, hvh⟩ := hgood hex
      simp only [iff_true]
      apply mem_keys_of_get
      unfold ListLockfile
      rw [addResolved_stack_extra _ _ _ _ hex]
      have hp : pinnedVersion [] info = info.Version := by simp [pinnedVersion]
      rw [hp]
      exact listLock_added initialStack n info.Version _ endsNl_initialStack hnl
        (info_version_no_nl w n info hinfo) hvh
    · simp only [Bool.true_eq_false, iff_false]
      unfold ListLockfile
      rw [addResolved_stack_curated _ _ _ _ hex]
      have h0 : listLock (readFile (ensureInit emptyDir).stack) = [] := by decide
      rw [h0]
      simp [GoMap.keys]
  · intro hex
    rw [addResolved_stack_curated _ _ _ _ hex]
    rfl

/-- C9, witness: a curated package and a package outside the curated set. -/
theorem C9_lock_entry_iff_not_curated_witness :
    (∃ fs1, Add curatedWorld emptyDir [("aeson".toList, [])] = .ok fs1 ∧
      ("aeson".toList ∈ GoMap.keys (ListLockfile fs1) ↔ onStackage aesonInfo = false) ∧
      (onStackage aesonInfo = true → fs1.stack = some initialStack)) ∧
    (∃ fs1, Add (extraWorld "2.0".toList) emptyDir [("foo".toList, [])] = .ok fs1 ∧
      ("foo".toList ∈ GoMap.keys (ListLockfile fs1) ↔ onStackage fooInfo = false) ∧
      (onStackage fooInfo = true → fs1.stack = some initialStack)) ∧
    onStackage aesonInfo = true ∧ onStackage fooInfo = false :=
  ⟨C9_lock_entry_iff_not_curated curatedWorld "aeson".toList aesonInfo
      (by rfl) (fun _ => ⟨by decide, by decide⟩),
    C9_lock_entry_iff_not_curated (extraWorld "2.0".toList) "foo".toList fooInfo
      (by rfl) (fun _ => ⟨by decide, by decide⟩),
    by rfl, by rfl⟩

/-- C9 as stated fails. `foo` resolves to a package outside the curated
set whose metadata document gives the version `1.0-rc1`; the entry written for
it is split at the last hyphen, so the key of `ListLockfile()` is `foo-1.0`
and `foo` is not a key. -/
theorem C9_counterexample :
    (∃ info, Info (extraWorld "1.0-rc1".toList) "foo".toList = .ok info ∧
      onStackage info = false) ∧
    (Add (extraWorld "1.0-rc1".toList) emptyDir [("foo".toList, [])]
        = .ok { cabal := some (initialCabal ++ "    , foo\n".toList),
                stack := some (initialStack ++ "extra-deps:\n- foo-1.0-rc1\n".toList) } ∧
      ListLockfile { cabal := some (initialCabal ++ "    , foo\n".toList),
                     stack := some (initialStack ++ "extra-deps:\n- foo-1.0-rc1\n".toList) }
        = [("foo-1.0".toList, "rc1".toList)]) := by
  refine ⟨⟨_, rfl, rfl⟩, ⟨?_, ?_⟩⟩ <;> rfl

/-- C10, as amended. For every lockfile content: (1) each entry of
`ListLockfile()` is the split, at the last hyphen, of a non-empty text `t`
without line feed that stands in the content right after a hyphen and a blank
and runs to the end of its line or of the content, wherever that line stands;
(2) when the content is cut into pieces, each followed by a line feed, and a
rest, the pieces without a hyphen followed by a blank (the resolver line, the
system-ghc line, a section marker) can be left out without changing
`ListLockfile()`; (3) a content without a hyphen followed by a blank has no
entry; (4) a line made of a hyphen, a blank and a non-empty text `t`, after a
text that is empty or ends with a line feed, makes the name side of the split
of `t` a key, inside an `extra-deps` block or not. -/
theorem C10_entries_come_from_hyphen_blank (cab : Option Str) (c : Str) :
    (∀ k v, GoMap.get (ListLockfile { cabal := cab, stack := some c }) k = some v →
      ∃ t p s, splitEntry t = (k, v) ∧ t ≠ [] ∧ '\n' ∉ t ∧
        c = p ++ (lockLit ++ t) ++ s ∧ (s = [] ∨ s.head? = some '\n')) ∧
    (∀ ls d, c = unlines ls ++ d →
      ListLockfile { cabal := cab, stack := some c }
        = ListLockfile { cabal := cab,
                         stack := some (unlines (ls.filter (fun l => contains l lockLit)) ++ d) }) ∧
    (contains c lockLit = false → ListLockfile { cabal := cab, stack := some c } = []) ∧
    (∀ pre t post, c = pre ++ (lockLit ++ t ++ ['\n']) ++ post → endsNl pre = true →
      t ≠ [] → '\n' ∉ t →
      (splitEntry t).1 ∈ GoMap.keys (ListLockfile { cabal := cab, stack := some c })) := by
  unfold ListLockfile readFile
  simp only [Option.getD_some]
  refine ⟨?_, ?_, ?_, ?_⟩
  · intro k v h
    unfold listLock at h
    rcases get_foldl_mem splitEntry _ [] k v h with h0 | ⟨t, ht, e⟩
    · simp [GoMap.get] at h0
    · obtain ⟨h1, p, s, h2, h3⟩ := occurrence_of_mem_findAllLit lockLit lockLit_no_nl c 0 t ht
      exact ⟨t, p, s, e, h1, nl_not_mem_of_mem_findAllLit lockLit lockLit_no_nl c 0 t ht, h2, h3⟩
  · intro ls d e
    unfold listLock
    rw [e, findAllLit_filter_pieces lockLit lockLit_no_nl (by decide)]
  · intro h
    unfold listLock
    rw [findAllLit_of_not_contains lockLit lockLit_no_nl c h]
    rfl
  · intro pre t post e hpre ht hnl
    rw [mem_keys_listLock]
    refine ⟨t, ?_, rfl⟩
    rw [e, findAllLit_append lockLit lockLit_no_nl _ 0 post
        (endsNl_append hpre (endsNl_append_nl _)) (Nat.zero_le _),
      findAllLit_append_line lockLit pre t lockLit_no_nl hpre ht hnl]
    simp

/-- C10, witness: a `stack.yaml` with a `packages` block before the
`extra-deps` block. The entry of `acme-missiles` comes from the text after the
last hyphen and blank; without the lines that have no hyphen followed by a
blank the listing is the same; and the line of the `packages` block makes the
empty name a key. -/
theorem C10_entries_come_from_hyphen_blank_witness :
    (∃ t p s, splitEntry t = ("acme-missiles".toList, "0.3".toList) ∧ t ≠ [] ∧ '\n' ∉ t ∧
        readFile twoBlocksDir.stack = p ++ (lockLit ++ t) ++ s ∧
        (s = [] ∨ s.head? = some '\n')) ∧
    ListLockfile twoBlocksDir
      = ListLockfile { cabal := none, stack := some "- .\n- acme-missiles-0.3\n".toList } ∧
    [] ∈ GoMap.keys (ListLockfile twoBlocksDir) :=
  ⟨(C10_entries_come_from_hyphen_blank none (readFile twoBlocksDir.stack)).1
      "acme-missiles".toList "0.3".toList (by rfl),
   (C10_entries_come_from_hyphen_blank none (readFile twoBlocksDir.stack)).2.1
      (linesOf (readFile twoBlocksDir.stack)) [] (by rfl),
   (C10_entries_come_from_hyphen_blank none (readFile twoBlocksDir.stack)).2.2.2
      (initialStack ++ "packages:\n".toList) ".".toList "extra-deps:\n- acme-missiles-0.3\n".toList
      (by rfl) (by decide) (by decide) (by decide)⟩

/-- C10 as stated fails. (1) The line of the `packages` block, which is
outside the `extra-deps` block, contributes the entry with the empty name and
the version `.`. (2) A comment line with a hyphen followed by a blank
contributes an entry. -/
theorem C10_counterexample :
    listLock ("resolver: lts-16.10\nsystem-ghc: true\npackages:\n- .\n" ++
        "extra-deps:\n- acme-missiles-0.3\n").toList
      = [("acme-missiles".toList, "0.3".toList), ([], ".".toList)] ∧
    listLock "# pinned - see notes\nresolver: lts-16.10\n".toList
      = [([], "see notes".toList)] := by
  refine ⟨?_, ?_⟩ <;> rfl

end Haskell
